import Mathlib

/-!
The go-tour exercises: web crawler and equivalent binary trees.

A shallow embedding of `crawler.go` (the `UrlCounter`, `Crawl`, `main`,
`fakeFetcher`) and of `tree.go` (`Walk`, `Same`).

* Go maps are finite partial functions `String → Option _`; reading an absent
  key yields the zero value.
* `UrlCounter.isVisited` is the method on a Go `int` of `w` bits, which wraps
  around, and on a map that may be nil. Inside a crawl the count of a url is
  at most the number of tasks created, so `Crawl` is run on `isVisited`, the
  same method with the count as a mathematical integer on a made map; the
  two agree as long as the count is below the largest `int`.
* Goroutines are tasks in a pool; an execution is a sequence of scheduler
  choices, each running one atomic action of one task. The atomic actions of
  `Crawl` are its accesses to what the goroutines share: the call of
  `isVisited` (with the depth test that follows it), the call of `Fetch`, the
  print, `Add(1)` with the `go` statement after it, and the deferred `Done()`.
* A `Fetcher` is a function of the url: `Fetch` returns, and returns the same
  for the same url.
-/

namespace Crawler

/-! ## UrlCounter.v and isVisited -/

/-- The field `v map[string]int` of `UrlCounter`, once made by `make`. -/
abbrev CountMap := String → Option Int

/-- The value of `make(map[string]int)`. -/
def emptyMap : CountMap := fun _ => none

/-- The read `u.v[url]`: an absent key reads as 0. -/
def mapGet (v : CountMap) (url : String) : Int := (v url).getD 0

/-- The write `u.v[url] = c`. -/
def mapSet (v : CountMap) (url : String) (c : Int) : CountMap :=
  fun k => if k = url then some c else v k

/-- The largest value of a Go `int` of `w` bits. -/
def maxInt (w : Nat) : Int := 2 ^ (w - 1) - 1

/-- The smallest value of a Go `int` of `w` bits. -/
def minInt (w : Nat) : Int := -(2 ^ (w - 1))

/-- Go arithmetic on an `int` of `w` bits: the result wraps around. -/
def wrapInt (w : Nat) (x : Int) : Int := (x + 2 ^ (w - 1)) % 2 ^ w - 2 ^ (w - 1)

/-- The struct `UrlCounter`: its field `v`, `none` being the nil map of a zero
value. The mutex makes `isVisited` atomic; the WaitGroup is in the state of
the crawl. -/
structure UrlCounter where
  v : Option CountMap

/-- The read `u.v[url]`, which yields 0 on a nil map too. -/
def UrlCounter.count (u : UrlCounter) (url : String) : Int :=
  match u.v with
  | some m => mapGet m url
  | none => 0

/-- The method `isVisited` with `int` of `w` bits (64, or 32): `none` is the
panic of the assignment to an entry of a nil map. -/
def UrlCounter.isVisited (w : Nat) (u : UrlCounter) (url : String) :
    Option (UrlCounter × Bool) :=
  match u.v with
  | none => none
  | some m =>
    -- u.v[url]++
    let m1 := mapSet m url (wrapInt w (mapGet m url + 1))
    -- if count := u.v[url]; count > 1 { return true }
    let count := mapGet m1 url
    if count > 1 then some (⟨some m1⟩, true) else some (⟨some m1⟩, false)

/-- A serial sequence of `isVisited` calls with `int` of `w` bits: the final
counter and the results in call order. -/
def UrlCounter.visitAll (w : Nat) (u : UrlCounter) : List String → Option (UrlCounter × List Bool)
  | [] => some (u, [])
  | url :: rest =>
    match UrlCounter.isVisited w u url with
    | none => none
    | some (u1, b) =>
      match UrlCounter.visitAll w u1 rest with
      | none => none
      | some (u2, bs) => some (u2, b :: bs)

/-- The method `isVisited` as a crawl runs it: on a made map, with the count
as a mathematical integer; returns the updated map and the boolean result.
It is run under the mutex, as one atomic action. -/
def isVisited (v : CountMap) (url : String) : CountMap × Bool :=
  -- u.v[url]++
  let v1 := mapSet v url (mapGet v url + 1)
  -- if count := u.v[url]; count > 1 { return true }
  let count := mapGet v1 url
  if count > 1 then (v1, true) else (v1, false)

/-- A serial sequence of `isVisited` calls with the count as a mathematical
integer: the final map and the results in call order. -/
def visitAll (v : CountMap) : List String → CountMap × List Bool
  | [] => (v, [])
  | url :: rest =>
    let r := isVisited v url
    let q := visitAll r.1 rest
    (q.1, r.2 :: q.2)

/-! ## Fetcher, fakeFetcher -/

/-- The three results of `Fetch`: `body`, `urls` and `err` (`none` is the nil
error). -/
structure FetchResult where
  body : String
  urls : List String
  err : Option String
  deriving DecidableEq, Repr

/-- The interface `Fetcher`: its method `Fetch`. -/
abbrev Fetcher := String → FetchResult

/-- The struct `fakeResult`. -/
structure fakeResult where
  body : String
  urls : List String
  deriving DecidableEq, Repr

/-- The type `fakeFetcher`, a `map[string]*fakeResult` with non-nil entries. -/
abbrev fakeFetcher := String → Option fakeResult

/-- The method `fakeFetcher.Fetch`. -/
def fakeFetcher.Fetch (f : fakeFetcher) (url : String) : FetchResult :=
  match f url with
  | some res => ⟨res.body, res.urls, none⟩
  | none => ⟨"", [], some ("not found: " ++ url)⟩

/-- The populated `fetcher` variable. -/
def fetcher : fakeFetcher := fun url =>
  if url = "https://golang.org/" then
    some ⟨"The Go Programming Language",
      ["https://golang.org/pkg/", "https://golang.org/cmd/"]⟩
  else if url = "https://golang.org/pkg/" then
    some ⟨"Packages",
      ["https://golang.org/", "https://golang.org/cmd/",
       "https://golang.org/pkg/fmt/", "https://golang.org/pkg/os/"]⟩
  else if url = "https://golang.org/pkg/fmt/" then
    some ⟨"Package fmt", ["https://golang.org/", "https://golang.org/pkg/"]⟩
  else if url = "https://golang.org/pkg/os/" then
    some ⟨"Package os", ["https://golang.org/", "https://golang.org/pkg/"]⟩
  else none

/-! ## Crawl as a pool of tasks -/

/-- Where a goroutine running `Crawl` stands, between two atomic actions. -/
inductive PC where
  /-- Before `uc.isVisited(url)`. -/
  | entry : PC
  /-- Past both checks, before `fetcher.Fetch(url)`. -/
  | fetching : PC
  /-- `Fetch` has returned `r`, before the print. -/
  | reporting (r : FetchResult) : PC
  /-- In the `for` loop, `rest` being the urls still to range over. -/
  | spawning (rest : List String) : PC
  /-- The body has returned, the deferred `uc.wg.Done()` is still to run. -/
  | exiting : PC
  deriving DecidableEq, Repr

/-- One call of `Crawl(url, depth, fetcher, uc)` in progress. -/
structure Task where
  url : String
  depth : Int
  pc : PC
  deriving DecidableEq, Repr

/-- A line printed by `Crawl`: `found: url "body"`, or the error of the fetch
of `url`. -/
inductive Event where
  | found (url : String) (body : String) : Event
  | failed (url : String) (err : String) : Event
  deriving DecidableEq, Repr

/-- The url of the task that printed the line. -/
def Event.url : Event → String
  | .found u _ => u
  | .failed u _ => u

/-- The line a task for `url` prints for the fetch result `r`. -/
def eventOf (url : String) (r : FetchResult) : Event :=
  match r.err with
  | some e => .failed url e
  | none => .found url r.body

/-- The shared `UrlCounter` (`v`, `wg`), the goroutines running `Crawl`
(`pool`), what was printed (`out`), and the history of the run: the urls
`Fetch` was called with and the numbers of `Add(1)` and `Done()` calls. -/
structure State where
  v : CountMap
  wg : Int
  pool : List Task
  fetched : List String
  out : List Event
  adds : Nat
  dones : Nat

/-- The function `Crawl`, one atomic action at a time: the next action of the
call `t`, which is at index `i` of the pool. -/
def Crawl (f : Fetcher) (s : State) (i : Nat) (t : Task) : State :=
  match t.pc with
  | .entry =>
    -- if uc.isVisited(url) { return }; if depth <= 0 { return }
    let r := isVisited s.v t.url
    if r.2 then { s with v := r.1, pool := s.pool.set i { t with pc := .exiting } }
    else if t.depth ≤ 0 then
      { s with v := r.1, pool := s.pool.set i { t with pc := .exiting } }
    else { s with v := r.1, pool := s.pool.set i { t with pc := .fetching } }
  | .fetching =>
    -- body, urls, err := fetcher.Fetch(url)
    { s with fetched := s.fetched ++ [t.url],
             pool := s.pool.set i { t with pc := .reporting (f t.url) } }
  | .reporting r =>
    match r.err with
    | some e =>
      -- fmt.Println(err); return
      { s with out := s.out ++ [.failed t.url e],
               pool := s.pool.set i { t with pc := .exiting } }
    | none =>
      -- fmt.Printf("found: %s %q\n", url, body)
      { s with out := s.out ++ [.found t.url r.body],
               pool := s.pool.set i { t with pc := .spawning r.urls } }
  | .spawning [] =>
    -- the loop is over: return
    { s with pool := s.pool.set i { t with pc := .exiting } }
  | .spawning (u :: rest) =>
    -- uc.wg.Add(1); go Crawl(u, depth-1, fetcher, uc)
    { s with wg := s.wg + 1, adds := s.adds + 1,
             pool := s.pool.set i { t with pc := .spawning rest }
                       ++ [{ url := u, depth := t.depth - 1, pc := .entry }] }
  | .exiting =>
    -- the deferred uc.wg.Done(); the goroutine ends
    { s with wg := s.wg - 1, dones := s.dones + 1, pool := s.pool.eraseIdx i }

/-- The scheduler runs the task at index `i` for one atomic action; `none`
when the pool has no such task. -/
def step (f : Fetcher) (s : State) (i : Nat) : Option State :=
  match s.pool[i]? with
  | none => none
  | some t => some (Crawl f s i t)

/-- An execution: the scheduler's choices in order. -/
def run (f : Fetcher) : State → List Nat → Option State
  | s, [] => some s
  | s, i :: rest =>
    match step f s i with
    | none => none
    | some s1 => run f s1 rest

/-- The state in which `main` calls `Crawl(url, depth, fetcher, uc)`: a fresh
map, and the counter after `uc.wg.Add(1)`. -/
def initState (url : String) (depth : Int) : State :=
  { v := emptyMap, wg := 1, pool := [{ url := url, depth := depth, pc := .entry }],
    fetched := [], out := [], adds := 1, dones := 0 }

/-- The call `uc.wg.Wait()` returns when the counter is zero. -/
def waitReturns (s : State) : Prop := s.wg = 0

/-- The urls a successful fetch of `u` links to. -/
def links (f : Fetcher) (u : String) : List String :=
  match (f u).err with
  | none => (f u).urls
  | some _ => []

/-- The urls reached from `root` by a chain of exactly `k` links through
pages whose fetch succeeds. -/
def level (f : Fetcher) (root : String) : Nat → List String
  | 0 => [root]
  | k + 1 => (level f root k).flatMap (links f)

/-- A bound on the number of actions of a task at `entry` with remaining
depth `n` and of all the tasks descending from it. -/
def cost (f : Fetcher) : Nat → String → Nat
  | 0, _ => 2
  | n + 1, u =>
    2 + (match (f u).err with
         | some _ => 2
         | none => 3 + ((f u).urls.map (fun c => 1 + cost f n c)).sum)

/-- The potential of what is left of a `for` loop over `rest` run by a task of
depth `depth`. -/
def spawnPot (f : Fetcher) (depth : Int) (rest : List String) : Nat :=
  2 + (rest.map (fun c => 1 + cost f (depth - 1).toNat c)).sum

/-- The potential of a task: a bound on the actions left to it and to the
tasks it will spawn. -/
def taskPot (f : Fetcher) (t : Task) : Nat :=
  match t.pc with
  | .entry => if t.depth ≤ 0 then 2 else
      2 + (match (f t.url).err with
           | some _ => 2
           | none => 1 + spawnPot f t.depth (f t.url).urls)
  | .fetching =>
      1 + (match (f t.url).err with
           | some _ => 2
           | none => 1 + spawnPot f t.depth (f t.url).urls)
  | .reporting r =>
      match r.err with
      | some _ => 2
      | none => 1 + spawnPot f t.depth r.urls
  | .spawning rest => spawnPot f t.depth rest
  | .exiting => 1

/-- The potential of a state. -/
def pot (f : Fetcher) (s : State) : Nat := (s.pool.map (taskPot f)).sum

/-- The urls of the tasks that are about to call `Fetch`. -/
def fetchingUrls (pool : List Task) : List String :=
  (pool.filter (fun t => t.pc = .fetching)).map Task.url

/-- The urls of the tasks that hold a fetch result they have not printed. -/
def reportingUrls (pool : List Task) : List String :=
  (pool.filter (fun t => match t.pc with | .reporting _ => true | _ => false)).map Task.url

/-- The scenario graph A→[B,C], B→[A], C→[]. -/
def scenario : fakeFetcher := fun url =>
  if url = "A" then some ⟨"a", ["B", "C"]⟩
  else if url = "B" then some ⟨"b", ["A"]⟩
  else if url = "C" then some ⟨"c", []⟩
  else none

/-- A graph in which C is linked from the root A and from the child B of A:
A→[B,C], B→[C], C→[]. -/
def diamond : fakeFetcher := fun url =>
  if url = "A" then some ⟨"a", ["B", "C"]⟩
  else if url = "B" then some ⟨"b", ["C"]⟩
  else if url = "C" then some ⟨"c", []⟩
  else none

/-- The graph A→[B,C], B→[C], C→[D], D→[]. -/
def chain : fakeFetcher := fun url =>
  if url = "A" then some ⟨"a", ["B", "C"]⟩
  else if url = "B" then some ⟨"b", ["C"]⟩
  else if url = "C" then some ⟨"c", ["D"]⟩
  else if url = "D" then some ⟨"d", []⟩
  else none

/-! ## The actions of a task, one by one -/

/-- One atomic action of one task, with the pool split around the task:
the relational reading of `step`. -/
inductive Step (f : Fetcher) : State → State → Prop where
  /-- `isVisited` returns true: return. -/
  | visited (s : State) (l1 l2 : List Task) (u : String) (k : Int) :
      s.pool = l1 ++ ⟨u, k, .entry⟩ :: l2 → 1 ≤ mapGet s.v u →
      Step f s { s with v := (isVisited s.v u).1, pool := l1 ++ ⟨u, k, .exiting⟩ :: l2 }
  /-- `isVisited` returns false and `depth <= 0`: return. -/
  | exhausted (s : State) (l1 l2 : List Task) (u : String) (k : Int) :
      s.pool = l1 ++ ⟨u, k, .entry⟩ :: l2 → mapGet s.v u < 1 → k ≤ 0 →
      Step f s { s with v := (isVisited s.v u).1, pool := l1 ++ ⟨u, k, .exiting⟩ :: l2 }
  /-- `isVisited` returns false and `depth > 0`: go on to fetch. -/
  | claimed (s : State) (l1 l2 : List Task) (u : String) (k : Int) :
      s.pool = l1 ++ ⟨u, k, .entry⟩ :: l2 → mapGet s.v u < 1 → 0 < k →
      Step f s { s with v := (isVisited s.v u).1, pool := l1 ++ ⟨u, k, .fetching⟩ :: l2 }
  /-- The call of `Fetch`. -/
  | fetch (s : State) (l1 l2 : List Task) (u : String) (k : Int) :
      s.pool = l1 ++ ⟨u, k, .fetching⟩ :: l2 →
      Step f s { s with fetched := s.fetched ++ [u],
                        pool := l1 ++ ⟨u, k, .reporting (f u)⟩ :: l2 }
  /-- The fetch failed: print the error, return. -/
  | reportErr (s : State) (l1 l2 : List Task) (u : String) (k : Int)
      (r : FetchResult) (e : String) :
      s.pool = l1 ++ ⟨u, k, .reporting r⟩ :: l2 → r.err = some e →
      Step f s { s with out := s.out ++ [.failed u e],
                        pool := l1 ++ ⟨u, k, .exiting⟩ :: l2 }
  /-- The fetch succeeded: print the line, enter the loop. -/
  | reportOk (s : State) (l1 l2 : List Task) (u : String) (k : Int)
      (r : FetchResult) :
      s.pool = l1 ++ ⟨u, k, .reporting r⟩ :: l2 → r.err = none →
      Step f s { s with out := s.out ++ [.found u r.body],
                        pool := l1 ++ ⟨u, k, .spawning r.urls⟩ :: l2 }
  /-- The loop is over: return. -/
  | loopEnd (s : State) (l1 l2 : List Task) (u : String) (k : Int) :
      s.pool = l1 ++ ⟨u, k, .spawning []⟩ :: l2 →
      Step f s { s with pool := l1 ++ ⟨u, k, .exiting⟩ :: l2 }
  /-- One turn of the loop: `Add(1)` and a new goroutine. -/
  | spawn (s : State) (l1 l2 : List Task) (u : String) (k : Int)
      (c : String) (rest : List String) :
      s.pool = l1 ++ ⟨u, k, .spawning (c :: rest)⟩ :: l2 →
      Step f s { s with wg := s.wg + 1, adds := s.adds + 1,
                        pool := l1 ++ ⟨u, k, .spawning rest⟩ :: (l2 ++ [⟨c, k - 1, .entry⟩]) }
  /-- The deferred `Done()`: the task leaves the pool. -/
  | done (s : State) (l1 l2 : List Task) (u : String) (k : Int) :
      s.pool = l1 ++ ⟨u, k, .exiting⟩ :: l2 →
      Step f s { s with wg := s.wg - 1, dones := s.dones + 1, pool := l1 ++ l2 }

/-- The counter of the WaitGroup against the pool and the history. -/
structure CounterInv (s : State) : Prop where
  wg_eq : s.wg = s.pool.length
  adds_eq : s.adds = s.dones + s.pool.length

/-- What the program point of a task says about its depth and what it
holds. -/
def pcOK (f : Fetcher) (t : Task) : Prop :=
  match t.pc with
  | .entry => True
  | .fetching => 0 < t.depth
  | .reporting r => 0 < t.depth ∧ r = f t.url
  | .spawning rest => 0 < t.depth ∧ (f t.url).err = none ∧ ∀ c ∈ rest, c ∈ (f t.url).urls
  | .exiting => True

/-- A task of the crawl of `root` with depth `d`: its url is `k` links from
the root and its remaining depth is `d - k`, a child being spawned only by a
task of positive depth. -/
def TaskOK (f : Fetcher) (root : String) (d : Int) (t : Task) : Prop :=
  (∃ k : Nat, t.depth = d - k ∧ t.url ∈ level f root k ∧ (k = 0 ∨ 0 ≤ t.depth)) ∧ pcOK f t

/-- The depth budget along an execution. -/
structure DepthInv (f : Fetcher) (root : String) (d : Int) (s : State) : Prop where
  tasks : ∀ t ∈ s.pool, TaskOK f root d t
  fetched : ∀ u ∈ s.fetched, ∃ k : Nat, (k : Int) + 1 ≤ d ∧ u ∈ level f root k
  events : ∀ e ∈ s.out, e = eventOf e.url (f e.url)
  quiet : d ≤ 0 → s.adds = 1 ∧ s.out = [] ∧ s.pool.length ≤ 1

/-- Claims along an execution: a url is fetched, or about to be, by at most
one task, and only once its count is positive; every fetch is printed once. -/
structure ClaimInv (s : State) : Prop where
  counts : ∀ u, 0 ≤ mapGet s.v u
  claim : ∀ u, (fetchingUrls s.pool).count u + s.fetched.count u
            ≤ (if 1 ≤ mapGet s.v u then 1 else 0)
  printed : ∀ u, (s.out.map Event.url).count u + (reportingUrls s.pool).count u
            = s.fetched.count u

/-- Progress along an execution: what has been claimed is fetched unless it
was claimed with the depth exhausted, and the links of a fetched page are
claimed or still to be. -/
structure ProgressInv (f : Fetcher) (root : String) (d : Int) (s : State) : Prop where
  rootClaim : 0 < d → root ∈ s.fetched ∨ (∃ k, ⟨root, k, .fetching⟩ ∈ s.pool) ∨
    (s.pool = [⟨root, d, .entry⟩] ∧ ∀ u, mapGet s.v u < 1)
  claimedDone : ∀ u, 1 ≤ mapGet s.v u →
    u ∈ s.fetched ∨ (∃ k, ⟨u, k, .fetching⟩ ∈ s.pool) ∨ u ∈ level f root d.toNat
  children : ∀ p ∈ s.fetched, ∀ c ∈ links f p,
    1 ≤ mapGet s.v c ∨ (∃ k, ⟨c, k, .entry⟩ ∈ s.pool) ∨
    (∃ k, ⟨p, k, .reporting (f p)⟩ ∈ s.pool) ∨
    (∃ k rest, ⟨p, k, .spawning rest⟩ ∈ s.pool ∧ c ∈ rest)

/-- No url other than the root is linked from the root both by a chain of
exactly `d` links, where the depth is exhausted, and by a shorter chain. -/
def DepthSeparated (f : Fetcher) (root : String) (d : Int) : Prop :=
  ∀ u ∈ level f root d.toNat, u ≠ root → ∀ k < d.toNat, u ∉ level f root k

/-- The chains of exactly `k` links that start at `root`, go through pages
whose fetch succeeds and pass no url twice: each chain is the list of its
urls, the last one first. -/
def simplePaths (f : Fetcher) (root : String) : Nat → List (List String)
  | 0 => [[root]]
  | k + 1 => (simplePaths f root k).flatMap (fun p =>
      match p with
      | [] => []
      | x :: _ => ((links f x).filter (fun c => decide (c ∉ p))).map (fun c => c :: p))

/-- The urls at the end of a chain of `simplePaths f root k`. -/
def simpleEnds (f : Fetcher) (root : String) (k : Nat) : List String :=
  (simplePaths f root k).filterMap List.head?

/-- No url is at the end both of a chain of exactly `d` links that passes no
url twice, where the depth is exhausted, and of such a chain of fewer links. -/
def SimpleSeparated (f : Fetcher) (root : String) (d : Int) : Prop :=
  ∀ u ∈ simpleEnds f root d.toNat, ∀ k < d.toNat, u ∉ simpleEnds f root k

/-- What a task has behind it: a task past the visited check is at the end of
a chain of claimed urls that passes no url twice; a task before it was spawned
by a task at the end of such a chain, or is the root task. -/
def chainOK (f : Fetcher) (root : String) (d : Int) (v : CountMap) (t : Task) : Prop :=
  match t.pc with
  | .entry => (t.url = root ∧ t.depth = d) ∨
      ∃ (k : Nat) (x : String) (q : List String), (x :: q) ∈ simplePaths f root k ∧
        t.url ∈ links f x ∧ t.depth = d - (k + 1) ∧ 0 ≤ t.depth ∧ ∀ y ∈ x :: q, 1 ≤ mapGet v y
  | .exiting => True
  | _ => ∃ (k : Nat) (q : List String), (t.url :: q) ∈ simplePaths f root k ∧
        t.depth = d - k ∧ 0 < t.depth ∧ ∀ y ∈ t.url :: q, 1 ≤ mapGet v y

/-- The chains along an execution: a url is fetched only at the end of a chain
of fewer than `d` links that passes no url twice, and a claimed url is fetched
unless it was claimed at the end of such a chain of exactly `d` links. -/
structure SimpleInv (f : Fetcher) (root : String) (d : Int) (s : State) : Prop where
  chains : ∀ t ∈ s.pool, chainOK f root d s.v t
  fetchedSimple : ∀ u ∈ s.fetched, ∃ k : Nat, (k : Int) + 1 ≤ d ∧ u ∈ simpleEnds f root k
  exhausted : ∀ u, 1 ≤ mapGet s.v u →
    u ∈ s.fetched ∨ (∃ k, ⟨u, k, .fetching⟩ ∈ s.pool) ∨ u ∈ simpleEnds f root d.toNat

end Crawler

namespace TreeEq

/-- The type `tree.Tree` of golang.org/x/tour/tree: `nil` or a node with
fields `Left`, `Value`, `Right`. -/
inductive Tree where
  | nil : Tree
  | node (Left : Tree) (Value : Int) (Right : Tree) : Tree
  deriving DecidableEq, Repr

/-- The test `t == nil`. -/
def Tree.isNil : Tree → Bool
  | .nil => true
  | .node _ _ _ => false

/-- The function `Walk`: `ch` is the sequence of values sent on the channel so
far, the result the sequence after the call. -/
def Walk : Tree → List Int → List Int
  | .nil, ch => ch
  | .node l v r, ch =>
    let ch1 := if !l.isNil then Walk l ch else ch
    let ch2 := ch1 ++ [v]
    if !r.isNil then Walk r ch2 else ch2

/-- A receive `v, ok := <-ch` on a channel whose remaining sends are the list
and which is closed after them: the value, `ok`, and what remains. -/
def recv : List Int → Int × Bool × List Int
  | [] => (0, false, [])
  | v :: rest => (v, true, rest)

/-- The `for` loop of `Same` over the two channels. -/
def sameLoop : List Int → List Int → Bool
  | [], c2 =>
    -- ch1 is closed: v1 = 0, ok1 = false
    match recv c2 with
    | (v2, ok2, _) =>
      if (false != ok2 || (0 : Int) != v2) then false
      else true
  | v1 :: r1, c2 =>
    -- ok1 = true
    match recv c2 with
    | (v2, ok2, r2) =>
      if (true != ok2 || v1 != v2) then false
      else sameLoop r1 r2

/-- The function `Same`. -/
def Same (t1 t2 : Tree) : Bool :=
  sameLoop (Walk t1 []) (Walk t2 [])

/-- In-order traversal: left subtree, then the node's value, then the right
subtree. -/
def inOrder : Tree → List Int
  | .nil => []
  | .node l v r => inOrder l ++ v :: inOrder r

/-- A sorted binary search tree: smaller values to the left, the others to
the right. -/
def IsBST : Tree → Prop
  | .nil => True
  | .node l v r =>
    IsBST l ∧ IsBST r ∧ (∀ x ∈ inOrder l, x < v) ∧ (∀ x ∈ inOrder r, v ≤ x)

/-- The function `insert` of golang.org/x/tour/tree. -/
def insert : Tree → Int → Tree
  | .nil, v => .node .nil v .nil
  | .node l x r, v =>
    if v < x then .node (insert l v) x r else .node l x (insert r v)

/-- The function `New` of golang.org/x/tour/tree, with the result of
`rand.Perm(10)` as a parameter. -/
def New (perm : List Nat) (k : Int) : Tree :=
  perm.foldl (fun (t : Tree) (v : Nat) => insert t ((1 + (v : Int)) * k)) .nil

end TreeEq

namespace Crawler

theorem mapGet_mapSet_self (v : CountMap) (url : String) (c : Int) :
    mapGet (mapSet v url c) url = c := by
  simp [mapGet, mapSet]

theorem mapGet_mapSet_other (v : CountMap) (url u : String) (c : Int) (h : u ≠ url) :
    mapGet (mapSet v url c) u = mapGet v u := by
  simp [mapGet, mapSet, h]

theorem isVisited_fst (v : CountMap) (url : String) :
    (isVisited v url).1 = mapSet v url (mapGet v url + 1) := by
  unfold isVisited
  simp only
  split <;> rfl

theorem isVisited_snd (v : CountMap) (url : String) :
    (isVisited v url).2 = decide (1 ≤ mapGet v url) := by
  unfold isVisited
  simp only [mapGet_mapSet_self]
  by_cases h : 1 ≤ mapGet v url
  · have h2 : mapGet v url + 1 > 1 := by omega
    simp [h, h2]
  · have h2 : ¬ (mapGet v url + 1 > 1) := by omega
    simp [h, h2]

theorem isVisited_get_self (v : CountMap) (url : String) :
    mapGet (isVisited v url).1 url = mapGet v url + 1 := by
  rw [isVisited_fst, mapGet_mapSet_self]

theorem isVisited_get_other (v : CountMap) (url u : String) (h : u ≠ url) :
    mapGet (isVisited v url).1 u = mapGet v u := by
  rw [isVisited_fst, mapGet_mapSet_other _ _ _ _ h]

theorem isVisited_get (v : CountMap) (url u : String) :
    mapGet (isVisited v url).1 u = mapGet v u + (if u = url then 1 else 0) := by
  by_cases h : u = url
  · subst h; simp [isVisited_get_self]
  · simp [h, isVisited_get_other _ _ _ h]

theorem isVisited_mono (v : CountMap) (u x : String) :
    mapGet v x ≤ mapGet (isVisited v u).1 x := by
  rw [isVisited_get]
  split <;> omega

/-- With the count as a mathematical integer, one call adds one to the count
of its url, keeps every other entry, and returns true exactly when the new
count exceeds 1. -/
theorem isVisited_unbounded (v : CountMap) (url : String) :
    mapGet (isVisited v url).1 url = mapGet v url + 1 ∧
    (v url = none → (isVisited v url).1 url = some 1) ∧
    (∀ u, u ≠ url → (isVisited v url).1 u = v u) ∧
    ((isVisited v url).2 = true ↔ 1 < mapGet (isVisited v url).1 url) := by
  refine ⟨isVisited_get_self v url, ?_, ?_, ?_⟩
  · intro h
    rw [isVisited_fst]
    simp [mapSet, mapGet, h]
  · intro u hu
    rw [isVisited_fst]
    simp [mapSet, hu]
  · rw [isVisited_snd, isVisited_get_self]
    simp only [decide_eq_true_eq]
    omega

/-! ## isVisited on Go's int -/

theorem two_pow_pred (w : Nat) (hw : 1 ≤ w) : (2 : Int) ^ w = 2 * 2 ^ (w - 1) := by
  obtain ⟨n, rfl⟩ : ∃ n, w = n + 1 := ⟨w - 1, by omega⟩
  simp [pow_succ]
  ring

theorem two_pow_pos (n : Nat) : (0 : Int) < 2 ^ n := by positivity

theorem wrapInt_id (w : Nat) (hw : 1 ≤ w) (x : Int) (h1 : minInt w ≤ x) (h2 : x ≤ maxInt w) :
    wrapInt w x = x := by
  unfold wrapInt
  unfold minInt at h1
  unfold maxInt at h2
  have hp := two_pow_pred w hw
  have hpos := two_pow_pos (w - 1)
  rw [Int.emod_eq_of_lt (by omega) (by omega)]
  omega

theorem wrapInt_max (w : Nat) (hw : 1 ≤ w) : wrapInt w (maxInt w + 1) = minInt w := by
  unfold wrapInt maxInt minInt
  have hp := two_pow_pred w hw
  have h : (2 : Int) ^ (w - 1) - 1 + 1 + 2 ^ (w - 1) = 2 ^ w := by omega
  rw [h, Int.emod_self]
  omega

theorem minInt_le (w : Nat) : minInt w ≤ -1 := by
  unfold minInt
  have := two_pow_pos (w - 1)
  omega

/-- Below the largest `int`, the method on Go's `int` is the method on
mathematical integers. -/
theorem isVisited_agrees (w : Nat) (hw : 1 ≤ w) (m : CountMap) (url : String)
    (hlo : minInt w ≤ mapGet m url + 1) (hhi : mapGet m url < maxInt w) :
    UrlCounter.isVisited w ⟨some m⟩ url
      = some (⟨some (isVisited m url).1⟩, (isVisited m url).2) := by
  have hwr := wrapInt_id w hw (mapGet m url + 1) hlo (by omega)
  unfold UrlCounter.isVisited isVisited
  simp only [hwr]
  split <;> rfl

end Crawler

namespace Crawler

/-! ## From `step` to `Step` -/

theorem getElem?_split {α : Type} (l : List α) (i : Nat) (t : α) (h : l[i]? = some t) :
    ∃ l1 l2, l = l1 ++ t :: l2 ∧ l1.length = i := by
  induction l generalizing i with
  | nil => simp at h
  | cons a l ih =>
    cases i with
    | zero =>
      simp at h
      exact ⟨[], l, by simp [h], rfl⟩
    | succ i =>
      simp at h
      obtain ⟨l1, l2, h1, h2⟩ := ih i h
      exact ⟨a :: l1, l2, by simp [h1], by simp [h2]⟩

theorem set_split {α : Type} (l1 l2 : List α) (t t1 : α) :
    (l1 ++ t :: l2).set l1.length t1 = l1 ++ t1 :: l2 := by
  induction l1 with
  | nil => rfl
  | cons a l1 ih => simp [ih]

theorem eraseIdx_split {α : Type} (l1 l2 : List α) (t : α) :
    (l1 ++ t :: l2).eraseIdx l1.length = l1 ++ l2 := by
  induction l1 with
  | nil => rfl
  | cons a l1 ih => simp [ih]

theorem getElem?_of_split {α : Type} (l1 l2 : List α) (t : α) :
    (l1 ++ t :: l2)[l1.length]? = some t := by
  induction l1 with
  | nil => simp
  | cons a l1 ih => simpa using ih

theorem step_at (f : Fetcher) (s : State) (l1 l2 : List Task) (t : Task)
    (hp : s.pool = l1 ++ t :: l2) :
    step f s l1.length = some (Crawl f s l1.length t) := by
  have h : s.pool[l1.length]? = some t := by rw [hp]; exact getElem?_of_split l1 l2 t
  simp only [step, h]

theorem step_sound (f : Fetcher) (s s1 : State) (i : Nat) (h : step f s i = some s1) :
    Step f s s1 := by
  unfold step at h
  cases hp : s.pool[i]? with
  | none => simp [hp] at h
  | some t =>
    simp only [hp, Option.some.injEq] at h
    obtain ⟨l1, l2, hsplit, hlen⟩ := getElem?_split _ _ _ hp
    subst hlen
    subst h
    obtain ⟨u, k, pc⟩ := t
    cases pc with
    | entry =>
      simp only [Crawl, hsplit, set_split]
      by_cases hv : 1 ≤ mapGet s.v u
      · have := Step.visited (f := f) s l1 l2 u k hsplit hv
        simpa [isVisited_snd, hv] using this
      · have hv1 : mapGet s.v u < 1 := by omega
        by_cases hk : k ≤ 0
        · have := Step.exhausted (f := f) s l1 l2 u k hsplit hv1 hk
          simpa [isVisited_snd, hv, hk] using this
        · have := Step.claimed (f := f) s l1 l2 u k hsplit hv1 (by omega)
          simpa [isVisited_snd, hv, hk] using this
    | fetching =>
      simp only [Crawl, hsplit, set_split]
      exact Step.fetch s l1 l2 u k hsplit
    | reporting r =>
      simp only [Crawl, hsplit, set_split]
      cases he : r.err with
      | none => simpa [he] using Step.reportOk (f := f) s l1 l2 u k r hsplit he
      | some e => simpa [he] using Step.reportErr (f := f) s l1 l2 u k r e hsplit he
    | spawning rest =>
      cases rest with
      | nil =>
        simp only [Crawl, hsplit, set_split]
        exact Step.loopEnd s l1 l2 u k hsplit
      | cons c rest =>
        simp only [Crawl, hsplit, set_split]
        simpa using Step.spawn (f := f) s l1 l2 u k c rest hsplit
    | exiting =>
      simp only [Crawl, hsplit, eraseIdx_split]
      exact Step.done s l1 l2 u k hsplit

/-- Every action the relation allows is an action of the scheduler. -/
theorem step_complete (f : Fetcher) (s s1 : State) (h : Step f s s1) :
    ∃ i, step f s i = some s1 := by
  cases h with
  | visited l1 l2 u k hp hv =>
    refine ⟨l1.length, ?_⟩
    rw [step_at f s l1 l2 _ hp]
    simp [Crawl, hp, set_split, isVisited_snd, hv]
  | exhausted l1 l2 u k hp hv hk =>
    refine ⟨l1.length, ?_⟩
    have hv1 : ¬ 1 ≤ mapGet s.v u := by omega
    rw [step_at f s l1 l2 _ hp]
    simp [Crawl, hp, set_split, isVisited_snd, hv1, hk]
  | claimed l1 l2 u k hp hv hk =>
    refine ⟨l1.length, ?_⟩
    have hv1 : ¬ 1 ≤ mapGet s.v u := by omega
    have hk1 : ¬ k ≤ 0 := by omega
    rw [step_at f s l1 l2 _ hp]
    simp [Crawl, hp, set_split, isVisited_snd, hv1, hk1]
  | fetch l1 l2 u k hp =>
    refine ⟨l1.length, ?_⟩
    rw [step_at f s l1 l2 _ hp]
    simp [Crawl, hp, set_split]
  | reportErr l1 l2 u k r e hp he =>
    refine ⟨l1.length, ?_⟩
    rw [step_at f s l1 l2 _ hp]
    simp [Crawl, hp, set_split, he]
  | reportOk l1 l2 u k r hp he =>
    refine ⟨l1.length, ?_⟩
    rw [step_at f s l1 l2 _ hp]
    simp [Crawl, hp, set_split, he]
  | loopEnd l1 l2 u k hp =>
    refine ⟨l1.length, ?_⟩
    rw [step_at f s l1 l2 _ hp]
    simp [Crawl, hp, set_split]
  | spawn l1 l2 u k c rest hp =>
    refine ⟨l1.length, ?_⟩
    rw [step_at f s l1 l2 _ hp]
    simp [Crawl, hp, set_split]
  | done l1 l2 u k hp =>
    refine ⟨l1.length, ?_⟩
    rw [step_at f s l1 l2 _ hp]
    simp [Crawl, hp, eraseIdx_split]

/-- A property kept by every action holds along every execution. -/
theorem run_induction (f : Fetcher) (P : State → Prop)
    (hstep : ∀ s s1, P s → Step f s s1 → P s1) :
    ∀ (sched : List Nat) (s s1 : State), P s → run f s sched = some s1 → P s1 := by
  intro sched
  induction sched with
  | nil =>
    intro s s1 hP h
    simp only [run, Option.some.injEq] at h
    exact h ▸ hP
  | cons i rest ih =>
    intro s s1 hP h
    simp only [run] at h
    cases hs : step f s i with
    | none => simp [hs] at h
    | some s2 =>
      simp only [hs] at h
      exact ih s2 s1 (hstep s s2 hP (step_sound f s s2 i hs)) h

theorem run_append (f : Fetcher) (a b : List Nat) (s : State) :
    run f s (a ++ b) = (run f s a).bind (fun s1 => run f s1 b) := by
  induction a generalizing s with
  | nil => simp [run]
  | cons i a ih =>
    simp only [List.cons_append, run]
    cases step f s i with
    | none => simp
    | some s2 => simpa using ih s2

end Crawler

namespace Crawler

/-! ## The WaitGroup counter -/

theorem counterInv_init (root : String) (d : Int) : CounterInv (initState root d) :=
  ⟨by simp [initState], by simp [initState]⟩

theorem counterInv_step (f : Fetcher) (s s1 : State) (hI : CounterInv s) (h : Step f s s1) :
    CounterInv s1 := by
  obtain ⟨h1, h2⟩ := hI
  cases h with
  | visited l1 l2 u k hp hv => exact ⟨by simpa [hp] using h1, by simpa [hp] using h2⟩
  | exhausted l1 l2 u k hp hv hk => exact ⟨by simpa [hp] using h1, by simpa [hp] using h2⟩
  | claimed l1 l2 u k hp hv hk => exact ⟨by simpa [hp] using h1, by simpa [hp] using h2⟩
  | fetch l1 l2 u k hp => exact ⟨by simpa [hp] using h1, by simpa [hp] using h2⟩
  | reportErr l1 l2 u k r e hp he => exact ⟨by simpa [hp] using h1, by simpa [hp] using h2⟩
  | reportOk l1 l2 u k r hp he => exact ⟨by simpa [hp] using h1, by simpa [hp] using h2⟩
  | loopEnd l1 l2 u k hp => exact ⟨by simpa [hp] using h1, by simpa [hp] using h2⟩
  | spawn l1 l2 u k c rest hp =>
    rw [hp] at h1 h2
    constructor
    · dsimp only
      simp only [List.length_append, List.length_cons, List.length_nil] at h1 ⊢
      push_cast at h1 ⊢
      omega
    · dsimp only
      simp only [List.length_append, List.length_cons, List.length_nil] at h2 ⊢
      omega
  | done l1 l2 u k hp =>
    rw [hp] at h1 h2
    constructor
    · dsimp only
      simp only [List.length_append, List.length_cons, List.length_nil] at h1 ⊢
      push_cast at h1 ⊢
      omega
    · dsimp only
      simp only [List.length_append, List.length_cons, List.length_nil] at h2 ⊢
      omega

theorem counterInv_run (f : Fetcher) (root : String) (d : Int) (sched : List Nat) (s : State)
    (h : run f (initState root d) sched = some s) : CounterInv s :=
  run_induction f CounterInv (counterInv_step f) sched _ _ (counterInv_init root d) h

/-- No task ever blocks: the scheduler can run any task of the pool. -/
theorem step_enabled (f : Fetcher) (s : State) (i : Nat) (h : i < s.pool.length) :
    ∃ s1, step f s i = some s1 := by
  simp [step, List.getElem?_eq_getElem h]

theorem step_none_iff (f : Fetcher) (s : State) (i : Nat) :
    step f s i = none ↔ s.pool.length ≤ i := by
  unfold step
  cases hp : s.pool[i]? with
  | none => simpa using hp
  | some t =>
    simp only [reduceCtorEq, false_iff, not_le]
    exact (List.getElem?_eq_some.mp hp).1

/-! ## Termination -/

theorem taskPot_entry (f : Fetcher) (c : String) (j : Int) :
    taskPot f ⟨c, j, .entry⟩ = cost f j.toNat c := by
  by_cases hj : j ≤ 0
  · have : j.toNat = 0 := by omega
    simp [taskPot, hj, this, cost]
  · obtain ⟨n, hn⟩ : ∃ n, j.toNat = n + 1 := ⟨j.toNat - 1, by omega⟩
    have h1 : (j - 1).toNat = n := by omega
    simp only [taskPot, hj, if_false, hn, cost, spawnPot, h1]
    cases (f c).err with
    | none => dsimp only; ring
    | some e => rfl

theorem taskPot_pos (f : Fetcher) (t : Task) : 1 ≤ taskPot f t := by
  obtain ⟨u, k, pc⟩ := t
  cases pc <;> simp only [taskPot, spawnPot]
  · split <;> omega
  · omega
  · split <;> omega
  · omega
  · omega

theorem pot_step (f : Fetcher) (s s1 : State) (h : Step f s s1) : pot f s1 < pot f s := by
  cases h with
  | visited l1 l2 u k hp hv =>
    have := taskPot_entry f u k
    have h2 : 2 ≤ cost f k.toNat u := by
      cases k.toNat <;> simp [cost]
    simp only [pot, hp, List.map_append, List.sum_append, List.map_cons, List.sum_cons, this]
    simp only [taskPot]
    omega
  | exhausted l1 l2 u k hp hv hk =>
    simp only [pot, hp, List.map_append, List.sum_append, List.map_cons, List.sum_cons]
    simp only [taskPot, hk, if_true]
    omega
  | claimed l1 l2 u k hp hv hk =>
    have hk1 : ¬ k ≤ 0 := by omega
    simp only [pot, hp, List.map_append, List.sum_append, List.map_cons, List.sum_cons]
    simp only [taskPot, hk1, if_false]
    omega
  | fetch l1 l2 u k hp =>
    simp only [pot, hp, List.map_append, List.sum_append, List.map_cons, List.sum_cons]
    simp only [taskPot]
    omega
  | reportErr l1 l2 u k r e hp he =>
    simp only [pot, hp, List.map_append, List.sum_append, List.map_cons, List.sum_cons]
    simp only [taskPot, he]
    omega
  | reportOk l1 l2 u k r hp he =>
    simp only [pot, hp, List.map_append, List.sum_append, List.map_cons, List.sum_cons]
    simp only [taskPot, he]
    omega
  | loopEnd l1 l2 u k hp =>
    simp only [pot, hp, List.map_append, List.sum_append, List.map_cons, List.sum_cons]
    simp only [taskPot, spawnPot, List.map_nil, List.sum_nil]
    omega
  | spawn l1 l2 u k c rest hp =>
    have := taskPot_entry f c (k - 1)
    simp only [pot, hp, List.map_append, List.sum_append, List.map_cons, List.sum_cons,
      List.map_nil, List.sum_nil, this]
    simp only [taskPot, spawnPot, List.map_cons, List.sum_cons]
    omega
  | done l1 l2 u k hp =>
    simp only [pot, hp, List.map_append, List.sum_append, List.map_cons, List.sum_cons]
    simp only [taskPot]
    omega

theorem adds_step (f : Fetcher) (s s1 : State) (h : Step f s s1) : s1.adds ≤ s.adds + 1 := by
  cases h <;> simp

theorem pot_run (f : Fetcher) :
    ∀ (sched : List Nat) (s s1 : State), run f s sched = some s1 →
      sched.length + pot f s1 ≤ pot f s ∧ s1.adds ≤ s.adds + sched.length := by
  intro sched
  induction sched with
  | nil =>
    intro s s1 h
    simp only [run, Option.some.injEq] at h
    subst h
    simp
  | cons i rest ih =>
    intro s s1 h
    simp only [run] at h
    cases hs : step f s i with
    | none => simp [hs] at h
    | some s2 =>
      simp only [hs] at h
      have h1 := pot_step f s s2 (step_sound f s s2 i hs)
      have h2 := adds_step f s s2 (step_sound f s s2 i hs)
      obtain ⟨h3, h4⟩ := ih s2 s1 h
      simp only [List.length_cons]
      constructor <;> omega

theorem pot_init (f : Fetcher) (root : String) (d : Int) :
    pot f (initState root d) = cost f d.toNat root := by
  simp [pot, initState, taskPot_entry]

/-- From every state the first task of the pool can be run again and again
until the pool is empty. -/
theorem run_to_end (f : Fetcher) : ∀ (n : Nat) (s : State), pot f s ≤ n →
    ∃ m s1, run f s (List.replicate m 0) = some s1 ∧ s1.pool = [] := by
  intro n
  induction n with
  | zero =>
    intro s hs
    refine ⟨0, s, rfl, ?_⟩
    cases hp : s.pool with
    | nil => rfl
    | cons t l =>
      have := taskPot_pos f t
      simp [pot, hp] at hs
      omega
  | succ n ih =>
    intro s hs
    cases hp : s.pool with
    | nil => exact ⟨0, s, rfl, hp⟩
    | cons t l =>
      obtain ⟨s2, h2⟩ := step_enabled f s 0 (by simp [hp])
      have hlt := pot_step f s s2 (step_sound f s s2 0 h2)
      obtain ⟨m, s1, h3, h4⟩ := ih s2 (by omega)
      exact ⟨m + 1, s1, by simp [List.replicate_succ, run, h2, h3], h4⟩

end Crawler

namespace Crawler

/-! ## The depth budget -/

theorem depthInv_init (f : Fetcher) (root : String) (d : Int) :
    DepthInv f root d (initState root d) := by
  refine ⟨?_, ?_, ?_, ?_⟩
  · intro t ht
    simp only [initState, List.mem_singleton] at ht
    subst ht
    exact ⟨⟨0, by simp, by simp [level], Or.inl rfl⟩, trivial⟩
  · intro u hu
    simp [initState] at hu
  · intro e he
    simp [initState] at he
  · intro _
    simp [initState]

theorem taskOK_pc (f : Fetcher) (root : String) (d : Int) (u : String) (k : Int) (pc pc1 : PC)
    (h : TaskOK f root d ⟨u, k, pc⟩) (h1 : pcOK f ⟨u, k, pc1⟩) : TaskOK f root d ⟨u, k, pc1⟩ :=
  ⟨h.1, h1⟩

theorem tasks_replace (f : Fetcher) (root : String) (d : Int) (l1 l2 : List Task) (t t1 : Task)
    (h : ∀ x ∈ l1 ++ t :: l2, TaskOK f root d x) (h1 : TaskOK f root d t1) :
    ∀ x ∈ l1 ++ t1 :: l2, TaskOK f root d x := by
  intro x hx
  simp only [List.mem_append, List.mem_cons] at hx h
  rcases hx with hx | hx | hx
  · exact h x (Or.inl hx)
  · exact hx ▸ h1
  · exact h x (Or.inr (Or.inr hx))

theorem tasks_mid (f : Fetcher) (root : String) (d : Int) (l1 l2 : List Task) (t : Task)
    (h : ∀ x ∈ l1 ++ t :: l2, TaskOK f root d x) : TaskOK f root d t :=
  h t (by simp)

theorem taskOK_positive (f : Fetcher) (root : String) (d : Int) (t : Task)
    (h : TaskOK f root d t) (hk : 0 < t.depth) : 0 < d := by
  obtain ⟨⟨j, h1, _, _⟩, _⟩ := h
  omega

theorem depthInv_step (f : Fetcher) (root : String) (d : Int) (s s1 : State)
    (hI : DepthInv f root d s) (h : Step f s s1) : DepthInv f root d s1 := by
  obtain ⟨hT, hF, hE, hQ⟩ := hI
  cases h with
  | visited l1 l2 u k hp hv =>
    rw [hp] at hT hQ
    exact ⟨tasks_replace f root d l1 l2 _ _ hT (taskOK_pc f root d u k _ _ (tasks_mid _ _ _ _ _ _ hT) trivial),
      hF, hE, by simpa using hQ⟩
  | exhausted l1 l2 u k hp hv hk =>
    rw [hp] at hT hQ
    exact ⟨tasks_replace f root d l1 l2 _ _ hT (taskOK_pc f root d u k _ _ (tasks_mid _ _ _ _ _ _ hT) trivial),
      hF, hE, by simpa using hQ⟩
  | claimed l1 l2 u k hp hv hk =>
    rw [hp] at hT hQ
    exact ⟨tasks_replace f root d l1 l2 _ _ hT (taskOK_pc f root d u k _ _ (tasks_mid _ _ _ _ _ _ hT) hk),
      hF, hE, by simpa using hQ⟩
  | fetch l1 l2 u k hp =>
    rw [hp] at hT hQ
    have hm := tasks_mid _ _ _ _ _ _ hT
    have hk : 0 < k := hm.2
    refine ⟨tasks_replace f root d l1 l2 _ _ hT (taskOK_pc f root d u k _ _ hm ⟨hk, rfl⟩),
      ?_, hE, by simpa using hQ⟩
    intro x hx
    simp only [List.mem_append, List.mem_singleton] at hx
    rcases hx with hx | hx
    · exact hF x hx
    · obtain ⟨⟨j, h1, h2, _⟩, _⟩ := hm
      subst hx
      exact ⟨j, by simp at h1; omega, h2⟩
  | reportErr l1 l2 u k r e hp he =>
    rw [hp] at hT hQ
    have hm := tasks_mid _ _ _ _ _ _ hT
    have hk : 0 < k := hm.2.1
    have hr : r = f u := hm.2.2
    have hd := taskOK_positive f root d _ hm hk
    refine ⟨tasks_replace f root d l1 l2 _ _ hT (taskOK_pc f root d u k _ _ hm trivial),
      hF, ?_, fun h0 => by omega⟩
    intro x hx
    simp only [List.mem_append, List.mem_singleton] at hx
    rcases hx with hx | hx
    · exact hE x hx
    · subst hx
      simp [Event.url, eventOf, ← hr, he]
  | reportOk l1 l2 u k r hp he =>
    rw [hp] at hT hQ
    have hm := tasks_mid _ _ _ _ _ _ hT
    have hk : 0 < k := hm.2.1
    have hr : r = f u := hm.2.2
    have hd := taskOK_positive f root d _ hm hk
    refine ⟨tasks_replace f root d l1 l2 _ _ hT
        (taskOK_pc f root d u k _ _ hm ⟨hk, hr ▸ he, fun c hc => hr ▸ hc⟩),
      hF, ?_, fun h0 => by omega⟩
    intro x hx
    simp only [List.mem_append, List.mem_singleton] at hx
    rcases hx with hx | hx
    · exact hE x hx
    · subst hx
      simp [Event.url, eventOf, ← hr, he]
  | loopEnd l1 l2 u k hp =>
    rw [hp] at hT hQ
    exact ⟨tasks_replace f root d l1 l2 _ _ hT (taskOK_pc f root d u k _ _ (tasks_mid _ _ _ _ _ _ hT) trivial),
      hF, hE, by simpa using hQ⟩
  | spawn l1 l2 u k c rest hp =>
    rw [hp] at hT
    have hm := tasks_mid _ _ _ _ _ _ hT
    obtain ⟨⟨j, h1, h2, h3⟩, h4, h5, h6⟩ := hm
    simp only at h1 h2 h4 h5 h6
    have hd : 0 < d := by omega
    refine ⟨?_, hF, hE, fun h0 => by omega⟩
    intro x hx
    simp only [List.mem_append, List.mem_cons, List.mem_singleton, List.not_mem_nil,
      or_false] at hx hT
    rcases hx with hx | hx | hx | hx
    · exact hT x (Or.inl hx)
    · subst hx
      exact ⟨⟨j, h1, h2, h3⟩, h4, h5, fun c1 hc1 => h6 c1 (List.mem_cons_of_mem _ hc1)⟩
    · exact hT x (Or.inr (Or.inr hx))
    · subst hx
      refine ⟨⟨j + 1, by simp only; push_cast; omega, ?_, Or.inr (by simp only; omega)⟩, trivial⟩
      simp only [level, List.mem_flatMap]
      exact ⟨u, h2, by simp [links, h5, h6 c (List.mem_cons_self _ _)]⟩
  | done l1 l2 u k hp =>
    rw [hp] at hT hQ
    refine ⟨?_, hF, hE, ?_⟩
    · intro x hx
      simp only [List.mem_append, List.mem_cons] at hx hT
      rcases hx with hx | hx
      · exact hT x (Or.inl hx)
      · exact hT x (Or.inr (Or.inr hx))
    · intro h0
      obtain ⟨a, b, c⟩ := hQ h0
      refine ⟨a, b, ?_⟩
      simp only [List.length_append, List.length_cons] at c ⊢
      omega

theorem depthInv_run (f : Fetcher) (root : String) (d : Int) (sched : List Nat) (s : State)
    (h : run f (initState root d) sched = some s) : DepthInv f root d s :=
  run_induction f (DepthInv f root d) (depthInv_step f root d) sched _ _
    (depthInv_init f root d) h

end Crawler

namespace Crawler

/-! ## Claims -/

theorem fetchingUrls_append (l1 l2 : List Task) :
    fetchingUrls (l1 ++ l2) = fetchingUrls l1 ++ fetchingUrls l2 := by
  simp [fetchingUrls]

theorem reportingUrls_append (l1 l2 : List Task) :
    reportingUrls (l1 ++ l2) = reportingUrls l1 ++ reportingUrls l2 := by
  simp [reportingUrls]

theorem fetchingUrls_nil : fetchingUrls [] = [] := rfl

theorem reportingUrls_nil : reportingUrls [] = [] := rfl

theorem fetchingUrls_cons (t : Task) (l : List Task) :
    fetchingUrls (t :: l) = (if t.pc = .fetching then [t.url] else []) ++ fetchingUrls l := by
  by_cases h : t.pc = .fetching <;> simp [fetchingUrls, List.filter_cons, h]

theorem reportingUrls_cons (t : Task) (l : List Task) :
    reportingUrls (t :: l) =
      (match t.pc with | .reporting _ => [t.url] | _ => []) ++ reportingUrls l := by
  obtain ⟨u, k, pc⟩ := t
  cases pc <;> simp [reportingUrls, List.filter_cons]

theorem mem_fetchingUrls (l : List Task) (u : String) :
    u ∈ fetchingUrls l ↔ ∃ k, ⟨u, k, .fetching⟩ ∈ l := by
  simp only [fetchingUrls, List.mem_map, List.mem_filter, decide_eq_true_eq]
  constructor
  · rintro ⟨⟨u1, k, pc⟩, ⟨h1, h2⟩, h3⟩
    simp only at h2 h3
    subst h2 h3
    exact ⟨k, h1⟩
  · rintro ⟨k, h⟩
    exact ⟨_, ⟨h, rfl⟩, rfl⟩

theorem claimInv_init (root : String) (d : Int) : ClaimInv (initState root d) := by
  refine ⟨?_, ?_, ?_⟩
  · intro u; simp [initState, mapGet, emptyMap]
  · intro u; simp [initState, fetchingUrls, List.filter_cons]
  · intro u; simp [initState, reportingUrls, List.filter_cons]

theorem claimInv_step (f : Fetcher) (s s1 : State) (hI : ClaimInv s) (h : Step f s s1) :
    ClaimInv s1 := by
  obtain ⟨hN, hC, hP⟩ := hI
  cases h with
  | visited l1 l2 u k hp hv =>
    refine ⟨fun x => ?_, fun x => ?_, fun x => ?_⟩
    · have := hN x
      simp only [isVisited_get]
      split <;> omega
    · have := hC x
      have := hN x
      simp only [hp, fetchingUrls_append, fetchingUrls_cons, isVisited_get, List.count_append,
        reduceCtorEq, if_false, List.nil_append] at *
      split_ifs at * <;> omega
    · have := hP x
      simp only [hp, reportingUrls_append, reportingUrls_cons, List.count_append,
        List.nil_append] at *
      omega
  | exhausted l1 l2 u k hp hv hk =>
    refine ⟨fun x => ?_, fun x => ?_, fun x => ?_⟩
    · have := hN x
      simp only [isVisited_get]
      split <;> omega
    · have := hC x
      have := hN x
      simp only [hp, fetchingUrls_append, fetchingUrls_cons, isVisited_get, List.count_append,
        reduceCtorEq, if_false, List.nil_append] at *
      split_ifs at * <;> omega
    · have := hP x
      simp only [hp, reportingUrls_append, reportingUrls_cons, List.count_append,
        List.nil_append] at *
      omega
  | claimed l1 l2 u k hp hv hk =>
    refine ⟨fun x => ?_, fun x => ?_, fun x => ?_⟩
    · have := hN x
      simp only [isVisited_get]
      split <;> omega
    · have h1 := hC x
      have h2 := hN x
      by_cases hx : x = u
      · subst hx
        have h3 : ¬ 1 ≤ mapGet s.v x := by omega
        simp only [hp, fetchingUrls_append, fetchingUrls_cons, isVisited_get, List.count_append,
          reduceCtorEq, if_false, if_true, List.nil_append, List.count_cons, List.count_nil,
          beq_iff_eq, h3, List.count_singleton_self] at h1 ⊢
        have h4 : 1 ≤ mapGet s.v x + 1 := by omega
        simp only [h4, if_true]
        omega
      · have hx1 : ¬ u = x := fun h => hx h.symm
        simp only [hp, fetchingUrls_append, fetchingUrls_cons, isVisited_get, List.count_append,
          reduceCtorEq, if_false, if_true, List.nil_append, List.count_cons, List.count_nil,
          beq_iff_eq, hx, hx1, add_zero, zero_add] at h1 ⊢
        exact h1
    · have := hP x
      simp only [hp, reportingUrls_append, reportingUrls_cons, List.count_append,
        List.nil_append] at *
      omega
  | fetch l1 l2 u k hp =>
    refine ⟨hN, fun x => ?_, fun x => ?_⟩
    · have := hC x
      simp only [hp, fetchingUrls_append, fetchingUrls_cons, List.count_append,
        reduceCtorEq, if_false, if_true, List.nil_append, List.count_cons, List.count_nil,
        beq_iff_eq] at *
      split_ifs at * <;> omega
    · have := hP x
      simp only [hp, reportingUrls_append, reportingUrls_cons, List.count_append,
        List.nil_append, List.count_cons, List.count_nil, beq_iff_eq] at *
      split_ifs at * <;> omega
  | reportErr l1 l2 u k r e hp he =>
    refine ⟨hN, fun x => ?_, fun x => ?_⟩
    · have := hC x
      simp only [hp, fetchingUrls_append, fetchingUrls_cons, List.count_append,
        reduceCtorEq, if_false, List.nil_append] at *
      omega
    · have := hP x
      simp only [hp, reportingUrls_append, reportingUrls_cons, List.count_append,
        List.nil_append, List.count_cons, List.count_nil, beq_iff_eq, List.map_append,
        List.map_cons, List.map_nil, Event.url] at *
      split_ifs at * <;> omega
  | reportOk l1 l2 u k r hp he =>
    refine ⟨hN, fun x => ?_, fun x => ?_⟩
    · have := hC x
      simp only [hp, fetchingUrls_append, fetchingUrls_cons, List.count_append,
        reduceCtorEq, if_false, List.nil_append] at *
      omega
    · have := hP x
      simp only [hp, reportingUrls_append, reportingUrls_cons, List.count_append,
        List.nil_append, List.count_cons, List.count_nil, beq_iff_eq, List.map_append,
        List.map_cons, List.map_nil, Event.url] at *
      split_ifs at * <;> omega
  | loopEnd l1 l2 u k hp =>
    refine ⟨hN, fun x => ?_, fun x => ?_⟩
    · have := hC x
      simp only [hp, fetchingUrls_append, fetchingUrls_cons, List.count_append,
        reduceCtorEq, if_false, List.nil_append] at *
      omega
    · have := hP x
      simp only [hp, reportingUrls_append, reportingUrls_cons, List.count_append,
        List.nil_append] at *
      omega
  | spawn l1 l2 u k c rest hp =>
    refine ⟨hN, fun x => ?_, fun x => ?_⟩
    · have := hC x
      simp only [hp, fetchingUrls_append, fetchingUrls_cons, List.count_append,
        reduceCtorEq, if_false, List.nil_append, fetchingUrls_nil, List.count_nil] at *
      omega
    · have := hP x
      simp only [hp, reportingUrls_append, reportingUrls_cons, List.count_append,
        List.nil_append, reportingUrls_nil, List.count_nil] at *
      omega
  | done l1 l2 u k hp =>
    refine ⟨hN, fun x => ?_, fun x => ?_⟩
    · have := hC x
      simp only [hp, fetchingUrls_append, fetchingUrls_cons, List.count_append,
        reduceCtorEq, if_false, List.nil_append] at *
      omega
    · have := hP x
      simp only [hp, reportingUrls_append, reportingUrls_cons, List.count_append,
        List.nil_append] at *
      omega

theorem claimInv_run (f : Fetcher) (root : String) (d : Int) (sched : List Nat) (s : State)
    (h : run f (initState root d) sched = some s) : ClaimInv s :=
  run_induction f ClaimInv (claimInv_step f) sched _ _ (claimInv_init root d) h

end Crawler

namespace Crawler

/-! ## Progress -/

theorem progressInv_init (f : Fetcher) (root : String) (d : Int) :
    ProgressInv f root d (initState root d) := by
  refine ⟨fun _ => Or.inr (Or.inr ⟨rfl, ?_⟩), ?_, ?_⟩
  · intro u; simp [initState, mapGet, emptyMap]
  · intro u hu; simp [initState, mapGet, emptyMap] at hu
  · intro p hp; simp [initState] at hp

theorem exhausted_level (f : Fetcher) (root : String) (d : Int) (u : String) (k : Int) (pc : PC)
    (h : TaskOK f root d ⟨u, k, pc⟩) (hk : k ≤ 0) : u ∈ level f root d.toNat := by
  obtain ⟨⟨j, h1, h2, h3⟩, _⟩ := h
  simp only at h1 h2 h3
  have : d.toNat = j := by omega
  rw [this]; exact h2

theorem singleton_split {α : Type} (l1 l2 : List α) (r t : α) (h : l1 ++ t :: l2 = [r]) :
    t = r ∧ l1 = [] ∧ l2 = [] := by
  cases l1 with
  | nil => simpa using h
  | cons a l => simp at h

theorem progressInv_step (f : Fetcher) (root : String) (d : Int) (s s1 : State)
    (hDep : DepthInv f root d s) (hCl : ClaimInv s)
    (hI : ProgressInv f root d s) (h : Step f s s1) : ProgressInv f root d s1 := by
  obtain ⟨hR, hD, hK⟩ := hI
  have hN := hCl.counts
  have hT := hDep.tasks
  cases h with
  | visited l1 l2 u k hp hv =>
    have hm := isVisited_mono s.v u
    have hu := isVisited_get_self s.v u
    have hnu := hN u
    have htu : TaskOK f root d ⟨u, k, .entry⟩ := hT _ (by simp [hp])
    refine ⟨fun hd => ?_, fun x hx => ?_, fun p hp1 c hc => ?_⟩
    · rcases hR hd with h | ⟨j, h⟩ | ⟨h, h0⟩
      · exact Or.inl h
      refine Or.inr (Or.inl ⟨j, ?_⟩)
      simp only [hp, List.mem_append, List.mem_cons, List.mem_singleton, Task.mk.injEq, reduceCtorEq, and_false, false_and, false_or, or_false, and_true, PC.reporting.injEq, PC.spawning.injEq] at h ⊢
      tauto
      · have := h0 u; omega
    · dsimp only at hx ⊢
      by_cases hxu : x = u
      · subst hxu
        rcases hD x hv with h | ⟨j, h⟩ | h
        · exact Or.inl h
        refine Or.inr (Or.inl ⟨j, ?_⟩)
        simp only [hp, List.mem_append, List.mem_cons, List.mem_singleton, Task.mk.injEq, reduceCtorEq, and_false, false_and, false_or, or_false, and_true, PC.reporting.injEq, PC.spawning.injEq] at h ⊢
        tauto
        · exact Or.inr (Or.inr h)
      · rw [isVisited_get_other _ _ _ hxu] at hx
        rcases hD x hx with h | ⟨j, h⟩ | h
        · exact Or.inl h
        refine Or.inr (Or.inl ⟨j, ?_⟩)
        simp only [hp, List.mem_append, List.mem_cons, List.mem_singleton, Task.mk.injEq, reduceCtorEq, and_false, false_and, false_or, or_false, and_true, PC.reporting.injEq, PC.spawning.injEq] at h ⊢
        tauto
        · exact Or.inr (Or.inr h)
    · dsimp only at hp1 ⊢
      have hmc := hm c
      rcases hK p hp1 c hc with h | ⟨j, h⟩ | ⟨j, h⟩ | ⟨j, rest1, h, hr⟩
      · exact Or.inl (by omega)
      · simp only [hp, List.mem_append, List.mem_cons, Task.mk.injEq, reduceCtorEq, and_false,
          false_or, and_true] at h
        rcases h with h | ⟨h1, h2⟩ | h
        · exact Or.inr (Or.inl ⟨j, by simp [h]⟩)
        · subst h1
          exact Or.inl (by omega)
        · exact Or.inr (Or.inl ⟨j, by simp [h]⟩)
      refine Or.inr (Or.inr (Or.inl ⟨j, ?_⟩))
      simp only [hp, List.mem_append, List.mem_cons, List.mem_singleton, Task.mk.injEq, reduceCtorEq, and_false, false_and, false_or, or_false, and_true, PC.reporting.injEq, PC.spawning.injEq] at h ⊢
      tauto
      refine Or.inr (Or.inr (Or.inr ⟨j, rest1, ?_, hr⟩))
      simp only [hp, List.mem_append, List.mem_cons, List.mem_singleton, Task.mk.injEq, reduceCtorEq, and_false, false_and, false_or, or_false, and_true, PC.reporting.injEq, PC.spawning.injEq] at h ⊢
      tauto
  | exhausted l1 l2 u k hp hv hk =>
    have hm := isVisited_mono s.v u
    have hu := isVisited_get_self s.v u
    have hnu := hN u
    have htu : TaskOK f root d ⟨u, k, .entry⟩ := hT _ (by simp [hp])
    refine ⟨fun hd => ?_, fun x hx => ?_, fun p hp1 c hc => ?_⟩
    · rcases hR hd with h | ⟨j, h⟩ | ⟨h, h0⟩
      · exact Or.inl h
      refine Or.inr (Or.inl ⟨j, ?_⟩)
      simp only [hp, List.mem_append, List.mem_cons, List.mem_singleton, Task.mk.injEq, reduceCtorEq, and_false, false_and, false_or, or_false, and_true, PC.reporting.injEq, PC.spawning.injEq] at h ⊢
      tauto
      · rw [hp] at h
        have := (singleton_split _ _ _ _ h).1
        simp only [Task.mk.injEq] at this
        omega
    · dsimp only at hx ⊢
      by_cases hxu : x = u
      · subst hxu
        exact Or.inr (Or.inr (exhausted_level f root d x k _ htu hk))
      · rw [isVisited_get_other _ _ _ hxu] at hx
        rcases hD x hx with h | ⟨j, h⟩ | h
        · exact Or.inl h
        refine Or.inr (Or.inl ⟨j, ?_⟩)
        simp only [hp, List.mem_append, List.mem_cons, List.mem_singleton, Task.mk.injEq, reduceCtorEq, and_false, false_and, false_or, or_false, and_true, PC.reporting.injEq, PC.spawning.injEq] at h ⊢
        tauto
        · exact Or.inr (Or.inr h)
    · dsimp only at hp1 ⊢
      have hmc := hm c
      rcases hK p hp1 c hc with h | ⟨j, h⟩ | ⟨j, h⟩ | ⟨j, rest1, h, hr⟩
      · exact Or.inl (by omega)
      · simp only [hp, List.mem_append, List.mem_cons, Task.mk.injEq, reduceCtorEq, and_false,
          false_or, and_true] at h
        rcases h with h | ⟨h1, h2⟩ | h
        · exact Or.inr (Or.inl ⟨j, by simp [h]⟩)
        · subst h1
          exact Or.inl (by omega)
        · exact Or.inr (Or.inl ⟨j, by simp [h]⟩)
      refine Or.inr (Or.inr (Or.inl ⟨j, ?_⟩))
      simp only [hp, List.mem_append, List.mem_cons, List.mem_singleton, Task.mk.injEq, reduceCtorEq, and_false, false_and, false_or, or_false, and_true, PC.reporting.injEq, PC.spawning.injEq] at h ⊢
      tauto
      refine Or.inr (Or.inr (Or.inr ⟨j, rest1, ?_, hr⟩))
      simp only [hp, List.mem_append, List.mem_cons, List.mem_singleton, Task.mk.injEq, reduceCtorEq, and_false, false_and, false_or, or_false, and_true, PC.reporting.injEq, PC.spawning.injEq] at h ⊢
      tauto
  | claimed l1 l2 u k hp hv hk =>
    have hm := isVisited_mono s.v u
    have hu := isVisited_get_self s.v u
    have hnu := hN u
    have htu : TaskOK f root d ⟨u, k, .entry⟩ := hT _ (by simp [hp])
    refine ⟨fun hd => ?_, fun x hx => ?_, fun p hp1 c hc => ?_⟩
    · rcases hR hd with h | ⟨j, h⟩ | ⟨h, h0⟩
      · exact Or.inl h
      refine Or.inr (Or.inl ⟨j, ?_⟩)
      simp only [hp, List.mem_append, List.mem_cons, List.mem_singleton, Task.mk.injEq, reduceCtorEq, and_false, false_and, false_or, or_false, and_true, PC.reporting.injEq, PC.spawning.injEq] at h ⊢
      tauto
      · rw [hp] at h
        have := (singleton_split _ _ _ _ h).1
        simp only [Task.mk.injEq] at this
        refine Or.inr (Or.inl ⟨k, ?_⟩)
        simp [this.1]
    · dsimp only at hx ⊢
      by_cases hxu : x = u
      · subst hxu
        exact Or.inr (Or.inl ⟨k, by simp⟩)
      · rw [isVisited_get_other _ _ _ hxu] at hx
        rcases hD x hx with h | ⟨j, h⟩ | h
        · exact Or.inl h
        refine Or.inr (Or.inl ⟨j, ?_⟩)
        simp only [hp, List.mem_append, List.mem_cons, List.mem_singleton, Task.mk.injEq, reduceCtorEq, and_false, false_and, false_or, or_false, and_true, PC.reporting.injEq, PC.spawning.injEq] at h ⊢
        tauto
        · exact Or.inr (Or.inr h)
    · dsimp only at hp1 ⊢
      have hmc := hm c
      rcases hK p hp1 c hc with h | ⟨j, h⟩ | ⟨j, h⟩ | ⟨j, rest1, h, hr⟩
      · exact Or.inl (by omega)
      · simp only [hp, List.mem_append, List.mem_cons, Task.mk.injEq, reduceCtorEq, and_false,
          false_or, and_true] at h
        rcases h with h | ⟨h1, h2⟩ | h
        · exact Or.inr (Or.inl ⟨j, by simp [h]⟩)
        · subst h1
          exact Or.inl (by omega)
        · exact Or.inr (Or.inl ⟨j, by simp [h]⟩)
      refine Or.inr (Or.inr (Or.inl ⟨j, ?_⟩))
      simp only [hp, List.mem_append, List.mem_cons, List.mem_singleton, Task.mk.injEq, reduceCtorEq, and_false, false_and, false_or, or_false, and_true, PC.reporting.injEq, PC.spawning.injEq] at h ⊢
      tauto
      refine Or.inr (Or.inr (Or.inr ⟨j, rest1, ?_, hr⟩))
      simp only [hp, List.mem_append, List.mem_cons, List.mem_singleton, Task.mk.injEq, reduceCtorEq, and_false, false_and, false_or, or_false, and_true, PC.reporting.injEq, PC.spawning.injEq] at h ⊢
      tauto
  | fetch l1 l2 u k hp =>
    refine ⟨fun hd => ?_, fun x hx => ?_, fun p hp1 c hc => ?_⟩
    · dsimp only
      rcases hR hd with h | ⟨j, h⟩ | ⟨h, h0⟩
      · exact Or.inl (by simp [h])
      · simp only [hp, List.mem_append, List.mem_cons, Task.mk.injEq, and_true] at h
        rcases h with h | ⟨h1, h2⟩ | h
        · exact Or.inr (Or.inl ⟨j, by simp [h]⟩)
        · exact Or.inl (by simp [h1])
        · exact Or.inr (Or.inl ⟨j, by simp [h]⟩)
      · rw [hp] at h
        have := (singleton_split _ _ _ _ h).1
        simp at this
    · dsimp only at hx ⊢
      rcases hD x hx with h | ⟨j, h⟩ | h
      · exact Or.inl (by simp [h])
      · simp only [hp, List.mem_append, List.mem_cons, Task.mk.injEq, and_true] at h
        rcases h with h | ⟨h1, h2⟩ | h
        · exact Or.inr (Or.inl ⟨j, by simp [h]⟩)
        · exact Or.inl (by simp [h1])
        · exact Or.inr (Or.inl ⟨j, by simp [h]⟩)
      · exact Or.inr (Or.inr h)
    · dsimp only at hp1 ⊢
      simp only [List.mem_append, List.mem_singleton] at hp1
      rcases hp1 with hp1 | hp1
      · rcases hK p hp1 c hc with h | ⟨j, h⟩ | ⟨j, h⟩ | ⟨j, rest1, h, hr⟩
        · exact Or.inl h
        refine Or.inr (Or.inl ⟨j, ?_⟩)
        simp only [hp, List.mem_append, List.mem_cons, List.mem_singleton, Task.mk.injEq, reduceCtorEq, and_false, false_and, false_or, or_false, and_true, PC.reporting.injEq, PC.spawning.injEq] at h ⊢
        tauto
        refine Or.inr (Or.inr (Or.inl ⟨j, ?_⟩))
        simp only [hp, List.mem_append, List.mem_cons, List.mem_singleton, Task.mk.injEq, reduceCtorEq, and_false, false_and, false_or, or_false, and_true, PC.reporting.injEq, PC.spawning.injEq] at h ⊢
        tauto
        refine Or.inr (Or.inr (Or.inr ⟨j, rest1, ?_, hr⟩))
        simp only [hp, List.mem_append, List.mem_cons, List.mem_singleton, Task.mk.injEq, reduceCtorEq, and_false, false_and, false_or, or_false, and_true, PC.reporting.injEq, PC.spawning.injEq] at h ⊢
        tauto
      · subst hp1
        exact Or.inr (Or.inr (Or.inl ⟨k, by simp⟩))
  | reportErr l1 l2 u k r e hp he =>
    have htu : TaskOK f root d ⟨u, k, .reporting r⟩ := hT _ (by simp [hp])
    have hr0 : r = f u := htu.2.2
    refine ⟨fun hd => ?_, fun x hx => ?_, fun p hp1 c hc => ?_⟩
    · dsimp only
      rcases hR hd with h | ⟨j, h⟩ | ⟨h, h0⟩
      · exact Or.inl h
      refine Or.inr (Or.inl ⟨j, ?_⟩)
      simp only [hp, List.mem_append, List.mem_cons, List.mem_singleton, Task.mk.injEq, reduceCtorEq, and_false, false_and, false_or, or_false, and_true, PC.reporting.injEq, PC.spawning.injEq] at h ⊢
      tauto
      · rw [hp] at h
        have := (singleton_split _ _ _ _ h).1
        simp at this
    · dsimp only at hx ⊢
      rcases hD x hx with h | ⟨j, h⟩ | h
      · exact Or.inl h
      refine Or.inr (Or.inl ⟨j, ?_⟩)
      simp only [hp, List.mem_append, List.mem_cons, List.mem_singleton, Task.mk.injEq, reduceCtorEq, and_false, false_and, false_or, or_false, and_true, PC.reporting.injEq, PC.spawning.injEq] at h ⊢
      tauto
      · exact Or.inr (Or.inr h)
    · dsimp only at hp1 ⊢
      rcases hK p hp1 c hc with h | ⟨j, h⟩ | ⟨j, h⟩ | ⟨j, rest1, h, hr⟩
      · exact Or.inl h
      refine Or.inr (Or.inl ⟨j, ?_⟩)
      simp only [hp, List.mem_append, List.mem_cons, List.mem_singleton, Task.mk.injEq, reduceCtorEq, and_false, false_and, false_or, or_false, and_true, PC.reporting.injEq, PC.spawning.injEq] at h ⊢
      tauto
      · simp only [hp, List.mem_append, List.mem_cons, Task.mk.injEq, PC.reporting.injEq] at h
        rcases h with h | ⟨h1, h2, h3⟩ | h
        · exact Or.inr (Or.inr (Or.inl ⟨j, by simp [h]⟩))
        · subst h1
          simp [links, h3, he] at hc
        · exact Or.inr (Or.inr (Or.inl ⟨j, by simp [h]⟩))
      refine Or.inr (Or.inr (Or.inr ⟨j, rest1, ?_, hr⟩))
      simp only [hp, List.mem_append, List.mem_cons, List.mem_singleton, Task.mk.injEq, reduceCtorEq, and_false, false_and, false_or, or_false, and_true, PC.reporting.injEq, PC.spawning.injEq] at h ⊢
      tauto
  | reportOk l1 l2 u k r hp he =>
    have htu : TaskOK f root d ⟨u, k, .reporting r⟩ := hT _ (by simp [hp])
    have hr0 : r = f u := htu.2.2
    refine ⟨fun hd => ?_, fun x hx => ?_, fun p hp1 c hc => ?_⟩
    · dsimp only
      rcases hR hd with h | ⟨j, h⟩ | ⟨h, h0⟩
      · exact Or.inl h
      refine Or.inr (Or.inl ⟨j, ?_⟩)
      simp only [hp, List.mem_append, List.mem_cons, List.mem_singleton, Task.mk.injEq, reduceCtorEq, and_false, false_and, false_or, or_false, and_true, PC.reporting.injEq, PC.spawning.injEq] at h ⊢
      tauto
      · rw [hp] at h
        have := (singleton_split _ _ _ _ h).1
        simp at this
    · dsimp only at hx ⊢
      rcases hD x hx with h | ⟨j, h⟩ | h
      · exact Or.inl h
      refine Or.inr (Or.inl ⟨j, ?_⟩)
      simp only [hp, List.mem_append, List.mem_cons, List.mem_singleton, Task.mk.injEq, reduceCtorEq, and_false, false_and, false_or, or_false, and_true, PC.reporting.injEq, PC.spawning.injEq] at h ⊢
      tauto
      · exact Or.inr (Or.inr h)
    · dsimp only at hp1 ⊢
      rcases hK p hp1 c hc with h | ⟨j, h⟩ | ⟨j, h⟩ | ⟨j, rest1, h, hr⟩
      · exact Or.inl h
      refine Or.inr (Or.inl ⟨j, ?_⟩)
      simp only [hp, List.mem_append, List.mem_cons, List.mem_singleton, Task.mk.injEq, reduceCtorEq, and_false, false_and, false_or, or_false, and_true, PC.reporting.injEq, PC.spawning.injEq] at h ⊢
      tauto
      · simp only [hp, List.mem_append, List.mem_cons, Task.mk.injEq, PC.reporting.injEq] at h
        rcases h with h | ⟨h1, h2, h3⟩ | h
        · exact Or.inr (Or.inr (Or.inl ⟨j, by simp [h]⟩))
        · subst h1
          simp only [links, h3, he] at hc
          exact Or.inr (Or.inr (Or.inr ⟨k, r.urls, by simp, hc⟩))
        · exact Or.inr (Or.inr (Or.inl ⟨j, by simp [h]⟩))
      refine Or.inr (Or.inr (Or.inr ⟨j, rest1, ?_, hr⟩))
      simp only [hp, List.mem_append, List.mem_cons, List.mem_singleton, Task.mk.injEq, reduceCtorEq, and_false, false_and, false_or, or_false, and_true, PC.reporting.injEq, PC.spawning.injEq] at h ⊢
      tauto
  | loopEnd l1 l2 u k hp =>
    refine ⟨fun hd => ?_, fun x hx => ?_, fun p hp1 c hc => ?_⟩
    · dsimp only
      rcases hR hd with h | ⟨j, h⟩ | ⟨h, h0⟩
      · exact Or.inl h
      refine Or.inr (Or.inl ⟨j, ?_⟩)
      simp only [hp, List.mem_append, List.mem_cons, List.mem_singleton, Task.mk.injEq, reduceCtorEq, and_false, false_and, false_or, or_false, and_true, PC.reporting.injEq, PC.spawning.injEq] at h ⊢
      tauto
      · rw [hp] at h
        have := (singleton_split _ _ _ _ h).1
        simp at this
    · dsimp only at hx ⊢
      rcases hD x hx with h | ⟨j, h⟩ | h
      · exact Or.inl h
      refine Or.inr (Or.inl ⟨j, ?_⟩)
      simp only [hp, List.mem_append, List.mem_cons, List.mem_singleton, Task.mk.injEq, reduceCtorEq, and_false, false_and, false_or, or_false, and_true, PC.reporting.injEq, PC.spawning.injEq] at h ⊢
      tauto
      · exact Or.inr (Or.inr h)
    · dsimp only at hp1 ⊢
      rcases hK p hp1 c hc with h | ⟨j, h⟩ | ⟨j, h⟩ | ⟨j, rest1, h, hr⟩
      · exact Or.inl h
      refine Or.inr (Or.inl ⟨j, ?_⟩)
      simp only [hp, List.mem_append, List.mem_cons, List.mem_singleton, Task.mk.injEq, reduceCtorEq, and_false, false_and, false_or, or_false, and_true, PC.reporting.injEq, PC.spawning.injEq] at h ⊢
      tauto
      refine Or.inr (Or.inr (Or.inl ⟨j, ?_⟩))
      simp only [hp, List.mem_append, List.mem_cons, List.mem_singleton, Task.mk.injEq, reduceCtorEq, and_false, false_and, false_or, or_false, and_true, PC.reporting.injEq, PC.spawning.injEq] at h ⊢
      tauto
      · simp only [hp, List.mem_append, List.mem_cons, Task.mk.injEq, PC.spawning.injEq] at h
        rcases h with h | ⟨h1, h2, h3⟩ | h
        · exact Or.inr (Or.inr (Or.inr ⟨j, rest1, by simp [h], hr⟩))
        · subst h3
          simp at hr
        · exact Or.inr (Or.inr (Or.inr ⟨j, rest1, by simp [h], hr⟩))
  | spawn l1 l2 u k c1 rest hp =>
    refine ⟨fun hd => ?_, fun x hx => ?_, fun p hp1 c hc => ?_⟩
    · dsimp only
      rcases hR hd with h | ⟨j, h⟩ | ⟨h, h0⟩
      · exact Or.inl h
      refine Or.inr (Or.inl ⟨j, ?_⟩)
      simp only [hp, List.mem_append, List.mem_cons, List.mem_singleton, Task.mk.injEq, reduceCtorEq, and_false, false_and, false_or, or_false, and_true, PC.reporting.injEq, PC.spawning.injEq] at h ⊢
      tauto
      · rw [hp] at h
        have := (singleton_split _ _ _ _ h).1
        simp at this
    · dsimp only at hx ⊢
      rcases hD x hx with h | ⟨j, h⟩ | h
      · exact Or.inl h
      refine Or.inr (Or.inl ⟨j, ?_⟩)
      simp only [hp, List.mem_append, List.mem_cons, List.mem_singleton, Task.mk.injEq, reduceCtorEq, and_false, false_and, false_or, or_false, and_true, PC.reporting.injEq, PC.spawning.injEq] at h ⊢
      tauto
      · exact Or.inr (Or.inr h)
    · dsimp only at hp1 ⊢
      rcases hK p hp1 c hc with h | ⟨j, h⟩ | ⟨j, h⟩ | ⟨j, rest1, h, hr⟩
      · exact Or.inl h
      refine Or.inr (Or.inl ⟨j, ?_⟩)
      simp only [hp, List.mem_append, List.mem_cons, List.mem_singleton, Task.mk.injEq, reduceCtorEq, and_false, false_and, false_or, or_false, and_true, PC.reporting.injEq, PC.spawning.injEq] at h ⊢
      tauto
      refine Or.inr (Or.inr (Or.inl ⟨j, ?_⟩))
      simp only [hp, List.mem_append, List.mem_cons, List.mem_singleton, Task.mk.injEq, reduceCtorEq, and_false, false_and, false_or, or_false, and_true, PC.reporting.injEq, PC.spawning.injEq] at h ⊢
      tauto
      · simp only [hp, List.mem_append, List.mem_cons, Task.mk.injEq, PC.spawning.injEq] at h
        rcases h with h | ⟨h1, h2, h3⟩ | h
        · exact Or.inr (Or.inr (Or.inr ⟨j, rest1, by simp [h], hr⟩))
        · subst h1 h2 h3
          simp only [List.mem_cons] at hr
          rcases hr with hr | hr
          · subst hr
            exact Or.inr (Or.inl ⟨j - 1, by simp⟩)
          · exact Or.inr (Or.inr (Or.inr ⟨j, rest, by simp, hr⟩))
        · exact Or.inr (Or.inr (Or.inr ⟨j, rest1, by simp [h], hr⟩))
  | done l1 l2 u k hp =>
    refine ⟨fun hd => ?_, fun x hx => ?_, fun p hp1 c hc => ?_⟩
    · dsimp only
      rcases hR hd with h | ⟨j, h⟩ | ⟨h, h0⟩
      · exact Or.inl h
      refine Or.inr (Or.inl ⟨j, ?_⟩)
      simp only [hp, List.mem_append, List.mem_cons, List.mem_singleton, Task.mk.injEq, reduceCtorEq, and_false, false_and, false_or, or_false, and_true, PC.reporting.injEq, PC.spawning.injEq] at h ⊢
      tauto
      · rw [hp] at h
        have := (singleton_split _ _ _ _ h).1
        simp at this
    · dsimp only at hx ⊢
      rcases hD x hx with h | ⟨j, h⟩ | h
      · exact Or.inl h
      refine Or.inr (Or.inl ⟨j, ?_⟩)
      simp only [hp, List.mem_append, List.mem_cons, List.mem_singleton, Task.mk.injEq, reduceCtorEq, and_false, false_and, false_or, or_false, and_true, PC.reporting.injEq, PC.spawning.injEq] at h ⊢
      tauto
      · exact Or.inr (Or.inr h)
    · dsimp only at hp1 ⊢
      rcases hK p hp1 c hc with h | ⟨j, h⟩ | ⟨j, h⟩ | ⟨j, rest1, h, hr⟩
      · exact Or.inl h
      refine Or.inr (Or.inl ⟨j, ?_⟩)
      simp only [hp, List.mem_append, List.mem_cons, List.mem_singleton, Task.mk.injEq, reduceCtorEq, and_false, false_and, false_or, or_false, and_true, PC.reporting.injEq, PC.spawning.injEq] at h ⊢
      tauto
      refine Or.inr (Or.inr (Or.inl ⟨j, ?_⟩))
      simp only [hp, List.mem_append, List.mem_cons, List.mem_singleton, Task.mk.injEq, reduceCtorEq, and_false, false_and, false_or, or_false, and_true, PC.reporting.injEq, PC.spawning.injEq] at h ⊢
      tauto
      refine Or.inr (Or.inr (Or.inr ⟨j, rest1, ?_, hr⟩))
      simp only [hp, List.mem_append, List.mem_cons, List.mem_singleton, Task.mk.injEq, reduceCtorEq, and_false, false_and, false_or, or_false, and_true, PC.reporting.injEq, PC.spawning.injEq] at h ⊢
      tauto

end Crawler

namespace Crawler

/-! ## What an execution fetches and prints -/

theorem inv_run (f : Fetcher) (root : String) (d : Int) (sched : List Nat) (s : State)
    (h : run f (initState root d) sched = some s) :
    DepthInv f root d s ∧ ClaimInv s ∧ ProgressInv f root d s :=
  run_induction f (fun s => DepthInv f root d s ∧ ClaimInv s ∧ ProgressInv f root d s)
    (fun s s1 hI hs =>
      ⟨depthInv_step f root d s s1 hI.1 hs, claimInv_step f s s1 hI.2.1 hs,
        progressInv_step f root d s s1 hI.1 hI.2.1 hI.2.2 hs⟩)
    sched _ _ ⟨depthInv_init f root d, claimInv_init root d, progressInv_init f root d⟩ h

theorem fetched_nodup (s : State) (hC : ClaimInv s) : s.fetched.Nodup := by
  rw [List.nodup_iff_count_le_one]
  intro u
  have := hC.claim u
  split at this <;> omega

theorem out_urls_nodup (s : State) (hC : ClaimInv s) : (s.out.map Event.url).Nodup := by
  rw [List.nodup_iff_count_le_one]
  intro u
  have h1 := hC.claim u
  have h2 := hC.printed u
  split at h1 <;> omega

theorem out_sub_fetched (s : State) (hC : ClaimInv s) (e : Event) (he : e ∈ s.out) :
    e.url ∈ s.fetched := by
  have h2 := hC.printed e.url
  have h3 : 0 < (s.out.map Event.url).count e.url :=
    List.count_pos_iff.mpr (List.mem_map_of_mem _ he)
  exact List.count_pos_iff.mp (by omega)

theorem out_complete (f : Fetcher) (root : String) (d : Int) (s : State)
    (hD : DepthInv f root d s) (hC : ClaimInv s) (hpool : s.pool = []) (e : Event) :
    e ∈ s.out ↔ e.url ∈ s.fetched ∧ e = eventOf e.url (f e.url) := by
  constructor
  · intro he
    exact ⟨out_sub_fetched s hC e he, hD.events e he⟩
  · rintro ⟨h1, h2⟩
    have h3 := hC.printed e.url
    rw [hpool, reportingUrls_nil, List.count_nil, add_zero] at h3
    have h4 : 0 < (s.out.map Event.url).count e.url := by
      rw [h3]; exact List.count_pos_iff.mpr h1
    obtain ⟨e1, h5, h6⟩ := List.mem_map.mp (List.count_pos_iff.mp h4)
    have h7 := hD.events e1 h5
    rw [h6] at h7
    rw [h2, ← h7]
    exact h5

theorem root_fetched (f : Fetcher) (root : String) (d : Int) (s : State)
    (hP : ProgressInv f root d s) (hpool : s.pool = []) (hd : 0 < d) : root ∈ s.fetched := by
  rcases hP.rootClaim hd with h | ⟨j, h⟩ | ⟨h, _⟩
  · exact h
  · simp [hpool] at h
  · simp [hpool] at h

theorem fetched_complete (f : Fetcher) (root : String) (d : Int) (s : State)
    (hP : ProgressInv f root d s) (hpool : s.pool = []) (hd : 0 < d)
    (hsep : DepthSeparated f root d) :
    ∀ k : Nat, (k : Int) + 1 ≤ d → ∀ u ∈ level f root k, u ∈ s.fetched := by
  intro k
  induction k with
  | zero =>
    intro _ u hu
    simp only [level, List.mem_singleton] at hu
    exact hu ▸ root_fetched f root d s hP hpool hd
  | succ k ih =>
    intro hk u hu
    simp only [level, List.mem_flatMap] at hu
    obtain ⟨p, hp1, hp2⟩ := hu
    have hpf := ih (by omega) p hp1
    have hcl : 1 ≤ mapGet s.v u := by
      rcases hP.children p hpf u hp2 with h | ⟨j, h⟩ | ⟨j, h⟩ | ⟨j, rest, h, _⟩
      · exact h
      · simp [hpool] at h
      · simp [hpool] at h
      · simp [hpool] at h
    rcases hP.claimedDone u hcl with h | ⟨j, h⟩ | h
    · exact h
    · simp [hpool] at h
    · by_cases hur : u = root
      · exact hur ▸ root_fetched f root d s hP hpool hd
      · exfalso
        refine hsep u h hur (k + 1) (by omega) ?_
        simp only [level, List.mem_flatMap]
        exact ⟨p, hp1, hp2⟩

/-- With the depths separated, a complete execution fetches exactly the urls
linked from the root by a chain of fewer than `d` links. -/
theorem fetched_iff (f : Fetcher) (root : String) (d : Int) (sched : List Nat) (s : State)
    (h : run f (initState root d) sched = some s) (hpool : s.pool = [])
    (hsep : DepthSeparated f root d) (u : String) :
    u ∈ s.fetched ↔ ∃ k : Nat, (k : Int) + 1 ≤ d ∧ u ∈ level f root k := by
  obtain ⟨hD, hC, hP⟩ := inv_run f root d sched s h
  constructor
  · exact hD.fetched u
  · rintro ⟨k, hk, hu⟩
    exact fetched_complete f root d s hP hpool (by omega) hsep k hk u hu

/-- With the depths separated, the lines a complete execution prints are
fixed by the fetcher, the root and the depth. -/
theorem out_iff (f : Fetcher) (root : String) (d : Int) (sched : List Nat) (s : State)
    (h : run f (initState root d) sched = some s) (hpool : s.pool = [])
    (hsep : DepthSeparated f root d) (e : Event) :
    e ∈ s.out ↔
      (∃ k : Nat, (k : Int) + 1 ≤ d ∧ e.url ∈ level f root k) ∧ e = eventOf e.url (f e.url) := by
  obtain ⟨hD, hC, hP⟩ := inv_run f root d sched s h
  rw [out_complete f root d s hD hC hpool e, fetched_iff f root d sched s h hpool hsep]

end Crawler

namespace Crawler

/-! ## The counts of a crawl stay in the range of Go's int -/

theorem count_le_adds_step (f : Fetcher) (s s1 : State) (h : Step f s s1)
    (hI : ∀ u, mapGet s.v u + ((s.pool.filter (fun t => t.pc = .entry)).length : Int) ≤ s.adds) :
    ∀ u, mapGet s1.v u + ((s1.pool.filter (fun t => t.pc = .entry)).length : Int) ≤ s1.adds := by
  intro x
  have hx := hI x
  cases h with
  | visited l1 l2 u k hp hv =>
    simp only [hp, List.filter_append, List.filter_cons, List.length_append, List.length_cons,
      decide_True, decide_False, if_true, if_false, reduceCtorEq, Bool.false_eq_true,
      isVisited_get] at hx ⊢
    push_cast at hx ⊢
    split <;> omega
  | exhausted l1 l2 u k hp hv hk =>
    simp only [hp, List.filter_append, List.filter_cons, List.length_append, List.length_cons,
      decide_True, decide_False, if_true, if_false, reduceCtorEq, Bool.false_eq_true,
      isVisited_get] at hx ⊢
    push_cast at hx ⊢
    split <;> omega
  | claimed l1 l2 u k hp hv hk =>
    simp only [hp, List.filter_append, List.filter_cons, List.length_append, List.length_cons,
      decide_True, decide_False, if_true, if_false, reduceCtorEq, Bool.false_eq_true,
      isVisited_get] at hx ⊢
    push_cast at hx ⊢
    split <;> omega
  | fetch l1 l2 u k hp =>
    simp only [hp, List.filter_append, List.filter_cons, List.length_append, List.length_cons,
      decide_True, decide_False, if_true, if_false, reduceCtorEq, Bool.false_eq_true] at hx ⊢
    exact hx
  | reportErr l1 l2 u k r e hp he =>
    simp only [hp, List.filter_append, List.filter_cons, List.length_append, List.length_cons,
      decide_True, decide_False, if_true, if_false, reduceCtorEq, Bool.false_eq_true] at hx ⊢
    exact hx
  | reportOk l1 l2 u k r hp he =>
    simp only [hp, List.filter_append, List.filter_cons, List.length_append, List.length_cons,
      decide_True, decide_False, if_true, if_false, reduceCtorEq, Bool.false_eq_true] at hx ⊢
    exact hx
  | loopEnd l1 l2 u k hp =>
    simp only [hp, List.filter_append, List.filter_cons, List.length_append, List.length_cons,
      decide_True, decide_False, if_true, if_false, reduceCtorEq, Bool.false_eq_true] at hx ⊢
    exact hx
  | spawn l1 l2 u k c rest hp =>
    simp only [hp, List.filter_append, List.filter_cons, List.length_append, List.length_cons,
      decide_True, decide_False, if_true, if_false, reduceCtorEq, Bool.false_eq_true,
      List.filter_nil, List.length_nil] at hx ⊢
    push_cast at hx ⊢
    omega
  | done l1 l2 u k hp =>
    simp only [hp, List.filter_append, List.filter_cons, List.length_append, List.length_cons,
      decide_True, decide_False, if_true, if_false, reduceCtorEq, Bool.false_eq_true] at hx ⊢
    exact hx

/-- In every execution the count of a url is between 0 and the number of tasks
created, which the cost of the crawl bounds. -/
theorem crawl_counts (f : Fetcher) (root : String) (d : Int) (sched : List Nat) (s : State)
    (h : run f (initState root d) sched = some s) (u : String) :
    0 ≤ mapGet s.v u ∧ mapGet s.v u ≤ s.adds ∧ s.adds ≤ 1 + cost f d.toNat root := by
  have h1 := (claimInv_run f root d sched s h).counts u
  have h2 := run_induction f
    (fun s => ∀ u, mapGet s.v u + ((s.pool.filter (fun t => t.pc = .entry)).length : Int) ≤ s.adds)
    (fun s s1 hI hs => count_le_adds_step f s s1 hs hI) sched _ s
    (by intro x; simp [initState, mapGet, emptyMap]) h u
  have h3 := (pot_run f sched _ s h).2
  have h4 := (pot_run f sched _ s h).1
  rw [pot_init] at h4
  simp only [initState] at h3
  refine ⟨h1, ?_, by omega⟩
  have h5 : (0 : Int) ≤ ((s.pool.filter (fun t => t.pc = .entry)).length : Int) := by positivity
  omega

/-- In a crawl whose cost is below the largest `int`, every call of `isVisited`
on Go's `int` is the call on mathematical integers that `Crawl` is run on. -/
theorem crawl_isVisited_agrees (w : Nat) (hw : 1 ≤ w) (f : Fetcher) (root : String) (d : Int)
    (sched : List Nat) (s : State) (h : run f (initState root d) sched = some s)
    (hc : ((1 + cost f d.toNat root : Nat) : Int) < maxInt w) (url : String) :
    UrlCounter.isVisited w ⟨some s.v⟩ url
      = some (⟨some (isVisited s.v url).1⟩, (isVisited s.v url).2) := by
  obtain ⟨h1, h2, h3⟩ := crawl_counts f root d sched s h url
  have hmin := minInt_le w
  refine isVisited_agrees w hw s.v url (by omega) ?_
  have : (s.adds : Int) ≤ ((1 + cost f d.toNat root : Nat) : Int) := by exact_mod_cast h3
  omega

end Crawler

namespace Crawler

/-! ## Chains that pass no url twice -/

theorem mem_simpleEnds (f : Fetcher) (root : String) (k : Nat) (u : String) :
    u ∈ simpleEnds f root k ↔ ∃ q, (u :: q) ∈ simplePaths f root k := by
  simp only [simpleEnds, List.mem_filterMap]
  constructor
  · rintro ⟨p, hp, hh⟩
    cases p with
    | nil => simp at hh
    | cons x q =>
      simp only [List.head?_cons, Option.some.injEq] at hh
      exact ⟨q, hh ▸ hp⟩
  · rintro ⟨q, hq⟩
    exact ⟨u :: q, hq, rfl⟩

theorem simplePaths_succ (f : Fetcher) (root : String) (k : Nat) (p : List String) :
    p ∈ simplePaths f root (k + 1) ↔
      ∃ c x q, p = c :: x :: q ∧ (x :: q) ∈ simplePaths f root k ∧ c ∈ links f x ∧
        c ∉ x :: q := by
  simp only [simplePaths, List.mem_flatMap]
  constructor
  · rintro ⟨p0, hp0, hp⟩
    cases p0 with
    | nil => simp at hp
    | cons x q =>
      simp only [List.mem_map, List.mem_filter, decide_eq_true_eq] at hp
      obtain ⟨c, ⟨h1, h2⟩, h3⟩ := hp
      exact ⟨c, x, q, h3.symm, hp0, h1, h2⟩
  · rintro ⟨c, x, q, rfl, h1, h2, h3⟩
    refine ⟨x :: q, h1, ?_⟩
    simp only [List.mem_map, List.mem_filter, decide_eq_true_eq]
    exact ⟨c, ⟨h2, h3⟩, rfl⟩

theorem simplePaths_zero (f : Fetcher) (root : String) (p : List String) :
    p ∈ simplePaths f root 0 ↔ p = [root] := by
  simp [simplePaths]

theorem chainOK_mono (f : Fetcher) (root : String) (d : Int) (v v1 : CountMap) (t : Task)
    (hm : ∀ y, mapGet v y ≤ mapGet v1 y) (h : chainOK f root d v t) : chainOK f root d v1 t := by
  obtain ⟨u, k, pc⟩ := t
  cases pc with
  | entry =>
    rcases h with h | ⟨j, x, q, h1, h2, h3, h4, h5⟩
    · exact Or.inl h
    · exact Or.inr ⟨j, x, q, h1, h2, h3, h4, fun y hy => le_trans (h5 y hy) (hm y)⟩
  | exiting => trivial
  | fetching =>
    obtain ⟨j, q, h1, h2, h3, h4⟩ := h
    exact ⟨j, q, h1, h2, h3, fun y hy => le_trans (h4 y hy) (hm y)⟩
  | reporting r =>
    obtain ⟨j, q, h1, h2, h3, h4⟩ := h
    exact ⟨j, q, h1, h2, h3, fun y hy => le_trans (h4 y hy) (hm y)⟩
  | spawning rest =>
    obtain ⟨j, q, h1, h2, h3, h4⟩ := h
    exact ⟨j, q, h1, h2, h3, fun y hy => le_trans (h4 y hy) (hm y)⟩

/-- A task at `entry` that finds its url unclaimed is at the end of a chain
that passes no url twice. -/
theorem chain_of_first_claim (f : Fetcher) (root : String) (d : Int) (v : CountMap)
    (u : String) (k : Int) (h : chainOK f root d v ⟨u, k, .entry⟩) (hv : mapGet v u < 1) :
    ∃ (j : Nat) (q : List String), (u :: q) ∈ simplePaths f root j ∧ k = d - j ∧
      (j = 0 ∨ 0 ≤ k) ∧ ∀ y ∈ q, 1 ≤ mapGet v y := by
  rcases h with ⟨h1, h2⟩ | ⟨j, x, q, h1, h2, h3, h4, h5⟩
  · simp only at h1 h2
    subst h1
    exact ⟨0, [], by simp [simplePaths], by simp [h2], Or.inl rfl, by simp⟩
  · simp only at h2 h3 h4
    refine ⟨j + 1, x :: q, ?_, by push_cast; omega, Or.inr h4, h5⟩
    rw [simplePaths_succ]
    refine ⟨u, x, q, rfl, h1, h2, ?_⟩
    intro hmem
    have := h5 u hmem
    omega

theorem simpleInv_init (f : Fetcher) (root : String) (d : Int) :
    SimpleInv f root d (initState root d) := by
  refine ⟨?_, ?_, ?_⟩
  · intro t ht
    simp only [initState, List.mem_singleton] at ht
    subst ht
    exact Or.inl ⟨rfl, rfl⟩
  · intro u hu
    simp [initState] at hu
  · intro u hu
    simp [initState, mapGet, emptyMap] at hu

theorem chains_frame (f : Fetcher) (root : String) (d : Int) (v v1 : CountMap)
    (l1 l2 new : List Task) (t : Task) (mid : List Task)
    (hm : ∀ y, mapGet v y ≤ mapGet v1 y)
    (h : ∀ x ∈ l1 ++ t :: l2, chainOK f root d v x)
    (hmid : ∀ x ∈ mid, chainOK f root d v1 x) (hnew : ∀ x ∈ new, chainOK f root d v1 x) :
    ∀ x ∈ l1 ++ (mid ++ (l2 ++ new)), chainOK f root d v1 x := by
  intro x hx
  simp only [List.mem_append] at hx
  rcases hx with hx | hx | hx | hx
  · exact chainOK_mono f root d v v1 x hm (h x (by simp [hx]))
  · exact hmid x hx
  · exact chainOK_mono f root d v v1 x hm (h x (by simp [hx]))
  · exact hnew x hx

theorem simpleInv_step (f : Fetcher) (root : String) (d : Int) (s s1 : State)
    (hDep : DepthInv f root d s) (hCl : ClaimInv s)
    (hI : SimpleInv f root d s) (h : Step f s s1) : SimpleInv f root d s1 := by
  obtain ⟨hCh, hFS, hEx⟩ := hI
  have hN := hCl.counts
  have hT := hDep.tasks
  have hrefl : ∀ y, mapGet s.v y ≤ mapGet s.v y := fun y => le_rfl
  cases h with
  | visited l1 l2 u k hp hv =>
    have hm := isVisited_mono s.v u
    have htu : chainOK f root d s.v ⟨u, k, .entry⟩ := hCh _ (by simp [hp])
    refine ⟨?_, hFS, ?_⟩
    · rw [hp] at hCh
      have := chains_frame f root d s.v _ l1 l2 [] _ [⟨u, k, .exiting⟩] hm hCh
        (by simp [chainOK]) (by simp)
      simpa using this
    · intro x hx
      dsimp only at hx ⊢
      by_cases hxu : x = u
      · subst hxu
        rcases hEx x hv with h | ⟨j, h⟩ | h
        · exact Or.inl h
        · refine Or.inr (Or.inl ⟨j, ?_⟩)
          simp only [hp, List.mem_append, List.mem_cons, List.mem_singleton, Task.mk.injEq, reduceCtorEq, and_false, false_and, false_or, or_false, and_true, PC.reporting.injEq, PC.spawning.injEq] at h ⊢
          tauto
        · exact Or.inr (Or.inr h)
      · rw [isVisited_get_other _ _ _ hxu] at hx
        rcases hEx x hx with h | ⟨j, h⟩ | h
        · exact Or.inl h
        · refine Or.inr (Or.inl ⟨j, ?_⟩)
          simp only [hp, List.mem_append, List.mem_cons, List.mem_singleton, Task.mk.injEq, reduceCtorEq, and_false, false_and, false_or, or_false, and_true, PC.reporting.injEq, PC.spawning.injEq] at h ⊢
          tauto
        · exact Or.inr (Or.inr h)
  | exhausted l1 l2 u k hp hv hk =>
    have hm := isVisited_mono s.v u
    have htu : chainOK f root d s.v ⟨u, k, .entry⟩ := hCh _ (by simp [hp])
    refine ⟨?_, hFS, ?_⟩
    · rw [hp] at hCh
      have := chains_frame f root d s.v _ l1 l2 [] _ [⟨u, k, .exiting⟩] hm hCh
        (by simp [chainOK]) (by simp)
      simpa using this
    · intro x hx
      dsimp only at hx ⊢
      by_cases hxu : x = u
      · subst hxu
        obtain ⟨j, q, h1, h2, h3, _⟩ := chain_of_first_claim f root d s.v x k htu hv
        refine Or.inr (Or.inr ?_)
        have hj : d.toNat = j := by omega
        rw [hj, mem_simpleEnds]
        exact ⟨q, h1⟩
      · rw [isVisited_get_other _ _ _ hxu] at hx
        rcases hEx x hx with h | ⟨j, h⟩ | h
        · exact Or.inl h
        · refine Or.inr (Or.inl ⟨j, ?_⟩)
          simp only [hp, List.mem_append, List.mem_cons, List.mem_singleton, Task.mk.injEq, reduceCtorEq, and_false, false_and, false_or, or_false, and_true, PC.reporting.injEq, PC.spawning.injEq] at h ⊢
          tauto
        · exact Or.inr (Or.inr h)
  | claimed l1 l2 u k hp hv hk =>
    have hm := isVisited_mono s.v u
    have htu : chainOK f root d s.v ⟨u, k, .entry⟩ := hCh _ (by simp [hp])
    refine ⟨?_, hFS, ?_⟩
    · rw [hp] at hCh
      obtain ⟨j, q, h1, h2, h3, h4⟩ := chain_of_first_claim f root d s.v u k htu hv
      have hmid : chainOK f root d (isVisited s.v u).1 ⟨u, k, .fetching⟩ := by
        refine ⟨j, q, h1, h2, hk, ?_⟩
        intro y hy
        simp only [List.mem_cons] at hy
        rcases hy with hy | hy
        · subst hy
          have := hN y
          rw [isVisited_get_self]
          omega
        · exact le_trans (h4 y hy) (hm y)
      have := chains_frame f root d s.v _ l1 l2 [] _ [⟨u, k, .fetching⟩] hm hCh
        (by simpa using hmid) (by simp)
      simpa using this
    · intro x hx
      dsimp only at hx ⊢
      by_cases hxu : x = u
      · subst hxu
        exact Or.inr (Or.inl ⟨k, by simp⟩)
      · rw [isVisited_get_other _ _ _ hxu] at hx
        rcases hEx x hx with h | ⟨j, h⟩ | h
        · exact Or.inl h
        · refine Or.inr (Or.inl ⟨j, ?_⟩)
          simp only [hp, List.mem_append, List.mem_cons, List.mem_singleton, Task.mk.injEq, reduceCtorEq, and_false, false_and, false_or, or_false, and_true, PC.reporting.injEq, PC.spawning.injEq] at h ⊢
          tauto
        · exact Or.inr (Or.inr h)
  | fetch l1 l2 u k hp =>
    have htu : chainOK f root d s.v ⟨u, k, .fetching⟩ := hCh _ (by simp [hp])
    obtain ⟨j0, q0, c1, c2, c3, c4⟩ := htu
    simp only at c1 c2 c3 c4
    have hmid : chainOK f root d s.v ⟨u, k, .reporting (f u)⟩ := ⟨j0, q0, c1, c2, c3, c4⟩
    refine ⟨?_, ?_, ?_⟩
    · rw [hp] at hCh
      have := chains_frame f root d s.v _ l1 l2 [] _ [⟨u, k, .reporting (f u)⟩] hrefl hCh
        (by simpa using hmid) (by simp)
      simpa using this
    · intro x hx
      simp only [List.mem_append, List.mem_singleton] at hx
      rcases hx with hx | hx
      · exact hFS x hx
      · subst hx
        exact ⟨j0, by omega, (mem_simpleEnds f root j0 x).mpr ⟨q0, c1⟩⟩
    · intro x hx
      dsimp only at hx ⊢
      rcases hEx x hx with h | ⟨j, h⟩ | h
      · exact Or.inl (by simp [h])
      · simp only [hp, List.mem_append, List.mem_cons, Task.mk.injEq, and_true] at h
        rcases h with h | ⟨h1, h2⟩ | h
        · exact Or.inr (Or.inl ⟨j, by simp [h]⟩)
        · exact Or.inl (by simp [h1])
        · exact Or.inr (Or.inl ⟨j, by simp [h]⟩)
      · exact Or.inr (Or.inr h)
  | reportErr l1 l2 u k r e hp he =>
    refine ⟨?_, hFS, ?_⟩
    · rw [hp] at hCh
      have := chains_frame f root d s.v _ l1 l2 [] _ [⟨u, k, .exiting⟩] hrefl hCh
        (by simp [chainOK]) (by simp)
      simpa using this
    · intro x hx
      dsimp only at hx ⊢
      rcases hEx x hx with h | ⟨j, h⟩ | h
      · exact Or.inl h
      · refine Or.inr (Or.inl ⟨j, ?_⟩)
        simp only [hp, List.mem_append, List.mem_cons, List.mem_singleton, Task.mk.injEq, reduceCtorEq, and_false, false_and, false_or, or_false, and_true, PC.reporting.injEq, PC.spawning.injEq] at h ⊢
        tauto
      · exact Or.inr (Or.inr h)
  | reportOk l1 l2 u k r hp he =>
    have htu : chainOK f root d s.v ⟨u, k, .reporting r⟩ := hCh _ (by simp [hp])
    obtain ⟨j0, q0, c1, c2, c3, c4⟩ := htu
    simp only at c1 c2 c3 c4
    have hmid : chainOK f root d s.v ⟨u, k, .spawning r.urls⟩ := ⟨j0, q0, c1, c2, c3, c4⟩
    refine ⟨?_, hFS, ?_⟩
    · rw [hp] at hCh
      have := chains_frame f root d s.v _ l1 l2 [] _ [⟨u, k, .spawning r.urls⟩] hrefl hCh
        (by simpa using hmid) (by simp)
      simpa using this
    · intro x hx
      dsimp only at hx ⊢
      rcases hEx x hx with h | ⟨j, h⟩ | h
      · exact Or.inl h
      · refine Or.inr (Or.inl ⟨j, ?_⟩)
        simp only [hp, List.mem_append, List.mem_cons, List.mem_singleton, Task.mk.injEq, reduceCtorEq, and_false, false_and, false_or, or_false, and_true, PC.reporting.injEq, PC.spawning.injEq] at h ⊢
        tauto
      · exact Or.inr (Or.inr h)
  | loopEnd l1 l2 u k hp =>
    refine ⟨?_, hFS, ?_⟩
    · rw [hp] at hCh
      have := chains_frame f root d s.v _ l1 l2 [] _ [⟨u, k, .exiting⟩] hrefl hCh
        (by simp [chainOK]) (by simp)
      simpa using this
    · intro x hx
      dsimp only at hx ⊢
      rcases hEx x hx with h | ⟨j, h⟩ | h
      · exact Or.inl h
      · refine Or.inr (Or.inl ⟨j, ?_⟩)
        simp only [hp, List.mem_append, List.mem_cons, List.mem_singleton, Task.mk.injEq, reduceCtorEq, and_false, false_and, false_or, or_false, and_true, PC.reporting.injEq, PC.spawning.injEq] at h ⊢
        tauto
      · exact Or.inr (Or.inr h)
  | spawn l1 l2 u k c rest hp =>
    have htu : chainOK f root d s.v ⟨u, k, .spawning (c :: rest)⟩ := hCh _ (by simp [hp])
    obtain ⟨j0, q0, c1, c2, c3, c4⟩ := htu
    simp only at c1 c2 c3 c4
    have hmid : chainOK f root d s.v ⟨u, k, .spawning rest⟩ := ⟨j0, q0, c1, c2, c3, c4⟩
    have hpc : pcOK f ⟨u, k, .spawning (c :: rest)⟩ := (hT _ (by simp [hp])).2
    have hlink : c ∈ links f u := by
      obtain ⟨_, h2, h3⟩ := hpc
      simp only at h2 h3
      simp only [links, h2]
      exact h3 c (List.mem_cons_self _ _)
    have hnew : chainOK f root d s.v ⟨c, k - 1, .entry⟩ :=
      Or.inr ⟨j0, u, q0, c1, hlink, by simp only; omega, by simp only; omega, c4⟩
    refine ⟨?_, hFS, ?_⟩
    · rw [hp] at hCh
      have := chains_frame f root d s.v _ l1 l2 [⟨c, k - 1, .entry⟩] _ [⟨u, k, .spawning rest⟩]
        hrefl hCh (by simpa using hmid) (by simpa using hnew)
      simpa using this
    · intro x hx
      dsimp only at hx ⊢
      rcases hEx x hx with h | ⟨j, h⟩ | h
      · exact Or.inl h
      · refine Or.inr (Or.inl ⟨j, ?_⟩)
        simp only [hp, List.mem_append, List.mem_cons, List.mem_singleton, Task.mk.injEq, reduceCtorEq, and_false, false_and, false_or, or_false, and_true, PC.reporting.injEq, PC.spawning.injEq] at h ⊢
        tauto
      · exact Or.inr (Or.inr h)
  | done l1 l2 u k hp =>
    refine ⟨?_, hFS, ?_⟩
    · rw [hp] at hCh
      have := chains_frame f root d s.v _ l1 l2 [] _ [] hrefl hCh
        (by simp) (by simp)
      simpa using this
    · intro x hx
      dsimp only at hx ⊢
      rcases hEx x hx with h | ⟨j, h⟩ | h
      · exact Or.inl h
      · refine Or.inr (Or.inl ⟨j, ?_⟩)
        simp only [hp, List.mem_append, List.mem_cons, List.mem_singleton, Task.mk.injEq, reduceCtorEq, and_false, false_and, false_or, or_false, and_true, PC.reporting.injEq, PC.spawning.injEq] at h ⊢
        tauto
      · exact Or.inr (Or.inr h)

theorem simpleInv_run (f : Fetcher) (root : String) (d : Int) (sched : List Nat) (s : State)
    (h : run f (initState root d) sched = some s) : SimpleInv f root d s :=
  run_induction f
    (fun s => (DepthInv f root d s ∧ ClaimInv s) ∧ SimpleInv f root d s)
    (fun s s1 hI hs =>
      ⟨⟨depthInv_step f root d s s1 hI.1.1 hs, claimInv_step f s s1 hI.1.2 hs⟩,
        simpleInv_step f root d s s1 hI.1.1 hI.1.2 hI.2 hs⟩)
    sched _ _ ⟨⟨depthInv_init f root d, claimInv_init root d⟩, simpleInv_init f root d⟩ h |>.2

end Crawler

namespace Crawler

/-! ## What a complete execution fetches, by chains that pass no url twice -/

theorem fetched_complete_simple (f : Fetcher) (root : String) (d : Int) (s : State)
    (hP : ProgressInv f root d s) (hS : SimpleInv f root d s) (hpool : s.pool = [])
    (hd : 0 < d) (hsep : SimpleSeparated f root d) :
    ∀ k : Nat, (k : Int) + 1 ≤ d → ∀ (u : String) (q : List String),
      (u :: q) ∈ simplePaths f root k → u ∈ s.fetched := by
  intro k
  induction k with
  | zero =>
    intro _ u q hu
    rw [simplePaths_zero] at hu
    simp only [List.cons.injEq] at hu
    exact hu.1 ▸ root_fetched f root d s hP hpool hd
  | succ k ih =>
    intro hk u q hu
    obtain ⟨c, x, q1, hp, h1, h2, h3⟩ := (simplePaths_succ f root k _).mp hu
    simp only [List.cons.injEq] at hp
    obtain ⟨rfl, rfl⟩ := hp
    have hxf := ih (by omega) x q1 h1
    have hcl : 1 ≤ mapGet s.v u := by
      rcases hP.children x hxf u h2 with h | ⟨j, h⟩ | ⟨j, h⟩ | ⟨j, rest, h, _⟩
      · exact h
      · simp [hpool] at h
      · simp [hpool] at h
      · simp [hpool] at h
    rcases hS.exhausted u hcl with h | ⟨j, h⟩ | h
    · exact h
    · simp [hpool] at h
    · exfalso
      exact hsep u h (k + 1) (by omega) ((mem_simpleEnds f root (k + 1) u).mpr ⟨_, hu⟩)

/-- With the chains separated, a complete execution fetches exactly the urls
at the end of a chain of fewer than `d` links that passes no url twice. -/
theorem fetched_iff_simple (f : Fetcher) (root : String) (d : Int) (sched : List Nat)
    (s : State) (h : run f (initState root d) sched = some s) (hpool : s.pool = [])
    (hsep : SimpleSeparated f root d) (u : String) :
    u ∈ s.fetched ↔ ∃ k : Nat, (k : Int) + 1 ≤ d ∧ u ∈ simpleEnds f root k := by
  obtain ⟨_, _, hP⟩ := inv_run f root d sched s h
  have hS := simpleInv_run f root d sched s h
  constructor
  · exact hS.fetchedSimple u
  · rintro ⟨k, hk, hu⟩
    obtain ⟨q, hq⟩ := (mem_simpleEnds f root k u).mp hu
    exact fetched_complete_simple f root d s hP hS hpool (by omega) hsep k hk u q hq

/-- With the chains separated, the lines a complete execution prints are fixed
by the fetcher, the root and the depth. -/
theorem out_iff_simple (f : Fetcher) (root : String) (d : Int) (sched : List Nat) (s : State)
    (h : run f (initState root d) sched = some s) (hpool : s.pool = [])
    (hsep : SimpleSeparated f root d) (e : Event) :
    e ∈ s.out ↔
      (∃ k : Nat, (k : Int) + 1 ≤ d ∧ e.url ∈ simpleEnds f root k) ∧
        e = eventOf e.url (f e.url) := by
  obtain ⟨hD, hC, _⟩ := inv_run f root d sched s h
  rw [out_complete f root d s hD hC hpool e, fetched_iff_simple f root d sched s h hpool hsep]

end Crawler

namespace Crawler

/-! ## Serial calls of isVisited -/

theorem visitAll_get (calls : List String) : ∀ (v : CountMap) (u : String),
    mapGet (visitAll v calls).1 u = mapGet v u + (calls.count u : Int) := by
  induction calls with
  | nil => intro v u; simp [visitAll]
  | cons c calls ih =>
    intro v u
    simp only [visitAll, ih, isVisited_get, List.count_cons, beq_iff_eq]
    by_cases h : u = c
    · subst h
      simp only [if_true]
      push_cast
      omega
    · have h1 : ¬ c = u := fun e => h e.symm
      simp [h, h1]

theorem visitAll_results (calls : List String) : ∀ (v : CountMap) (i : Nat)
    (h : i < calls.length),
    (visitAll v calls).2[i]? =
      some (decide (1 ≤ mapGet v calls[i] + ((calls.take i).count calls[i] : Int))) := by
  induction calls with
  | nil => intro v i h; simp at h
  | cons c calls ih =>
    intro v i h
    cases i with
    | zero => simp [visitAll, isVisited_snd]
    | succ i =>
      have h1 : i < calls.length := by simpa using h
      simp only [visitAll, List.getElem?_cons_succ, ih _ i h1, List.getElem_cons_succ,
        List.take_succ_cons, isVisited_get, List.count_cons, beq_iff_eq]
      by_cases hc : calls[i] = c
      · have hc1 : c = calls[i] := hc.symm
        rw [if_pos hc, if_pos hc1]
        congr 2
        simp only [eq_iff_iff]
        push_cast
        constructor <;> intro h <;> omega
      · have hc1 : ¬ c = calls[i] := fun e => hc e.symm
        rw [if_neg hc, if_neg hc1]
        simp

theorem visitAll_length (calls : List String) : ∀ v : CountMap,
    (visitAll v calls).2.length = calls.length := by
  induction calls with
  | nil => intro v; simp [visitAll]
  | cons c calls ih => intro v; simp [visitAll, ih]

theorem visitAll_first (calls : List String) (i : Nat) (h : i < calls.length) :
    (visitAll emptyMap calls).2[i]? = some (decide (calls[i] ∈ calls.take i)) := by
  rw [visitAll_results calls emptyMap i h]
  congr 1
  simp only [mapGet, emptyMap, Option.getD_none, zero_add, decide_eq_decide]
  rw [← List.count_pos_iff]
  omega

theorem visitAll_count (calls : List String) (url : String) :
    mapGet (visitAll emptyMap calls).1 url = (calls.count url : Int) := by
  rw [visitAll_get]
  simp [mapGet, emptyMap]

/-! ## Serial calls of isVisited on Go's int -/

/-- While no count reaches the largest `int`, a sequence of calls on Go's `int`
is the sequence on mathematical integers. -/
theorem visitAll_agrees (w : Nat) (hw : 1 ≤ w) (calls : List String) :
    ∀ m : CountMap, (∀ url, 0 ≤ mapGet m url) →
      (∀ url, mapGet m url + (calls.count url : Int) ≤ maxInt w) →
      UrlCounter.visitAll w ⟨some m⟩ calls
        = some (⟨some (visitAll m calls).1⟩, (visitAll m calls).2) := by
  induction calls with
  | nil => intro m _ _; rfl
  | cons c calls ih =>
    intro m h0 hb
    have hc := hb c
    have h0c := h0 c
    have hmin := minInt_le w
    simp only [List.count_cons_self, Nat.cast_add, Nat.cast_one] at hc
    have hag := isVisited_agrees w hw m c (by omega) (by omega)
    have hih := ih (isVisited m c).1
      (fun url => le_trans (h0 url) (by rw [isVisited_get]; split <;> omega))
      (fun url => by
        have := hb url
        rw [isVisited_get]
        simp only [List.count_cons, beq_iff_eq] at this
        by_cases hu : url = c
        · have hu1 : c = url := hu.symm
          rw [if_pos hu]
          rw [if_pos hu1] at this
          push_cast at this
          omega
        · have hu1 : ¬ c = url := fun e => hu e.symm
          rw [if_neg hu]
          rw [if_neg hu1] at this
          push_cast at this
          omega)
    simp only [UrlCounter.visitAll, hag, hih, visitAll]

theorem urlCounter_visitAll_append (w : Nat) (a b : List String) :
    ∀ u : UrlCounter, UrlCounter.visitAll w u (a ++ b) =
      (UrlCounter.visitAll w u a).bind (fun r =>
        (UrlCounter.visitAll w r.1 b).map (fun q => (q.1, r.2 ++ q.2))) := by
  induction a with
  | nil =>
    intro u
    simp only [List.nil_append, UrlCounter.visitAll, Option.some_bind]
    cases UrlCounter.visitAll w u b with
    | none => rfl
    | some q => rfl
  | cons c a ih =>
    intro u
    rw [List.cons_append]
    simp only [UrlCounter.visitAll]
    cases UrlCounter.isVisited w u c with
    | none => rfl
    | some r =>
      obtain ⟨u1, b1⟩ := r
      simp only [ih u1]
      cases UrlCounter.visitAll w u1 a with
      | none => rfl
      | some r2 =>
        obtain ⟨u2, b2⟩ := r2
        simp only [Option.some_bind]
        cases UrlCounter.visitAll w u2 b with
        | none => rfl
        | some q => rfl

theorem emptyMap_get (url : String) : mapGet emptyMap url = 0 := rfl

/-- Once the count of a url is the largest `int`, the next call for it wraps the
count to the smallest `int` and returns false. -/
theorem visitAll_wraps (w : Nat) (hw : 1 ≤ w) (a : String) (n : Nat)
    (hn : (n : Int) = maxInt w) :
    ∃ u0 bs0 u bs,
      UrlCounter.visitAll w ⟨some emptyMap⟩ (List.replicate n a) = some (u0, bs0) ∧
      u0.count a = n ∧
      UrlCounter.visitAll w ⟨some emptyMap⟩ (List.replicate (n + 1) a) = some (u, bs) ∧
      bs.getLast? = some false ∧
      u.count a = minInt w := by
  have hpre := visitAll_agrees w hw (List.replicate n a) emptyMap
    (fun url => by rw [emptyMap_get])
    (fun url => by
      rw [emptyMap_get, zero_add]
      have h1 := List.count_le_length url (List.replicate n a)
      rw [List.length_replicate] at h1
      have h2 : ((List.count url (List.replicate n a) : Nat) : Int) ≤ (n : Int) := by
        exact_mod_cast h1
      omega)
  generalize hM : (visitAll emptyMap (List.replicate n a)).1 = M at hpre
  generalize (visitAll emptyMap (List.replicate n a)).2 = B at hpre
  have hcnt : mapGet M a = maxInt w := by
    rw [← hM, visitAll_count, List.count_replicate_self, hn]
  have hmin := minInt_le w
  have hlast : UrlCounter.isVisited w ⟨some M⟩ a
      = some (⟨some (mapSet M a (minInt w))⟩, false) := by
    have hgt : ¬ minInt w > 1 := by omega
    simp only [UrlCounter.isVisited, hcnt, wrapInt_max w hw, mapGet_mapSet_self, hgt, if_false]
  have hfull : UrlCounter.visitAll w ⟨some emptyMap⟩ (List.replicate (n + 1) a)
      = some (⟨some (mapSet M a (minInt w))⟩, B ++ [false]) := by
    rw [List.replicate_succ', urlCounter_visitAll_append, hpre]
    simp only [Option.some_bind, UrlCounter.visitAll, hlast, Option.map_some']
  refine ⟨⟨some M⟩, B, ⟨some (mapSet M a (minInt w))⟩, B ++ [false], hpre, ?_, hfull, by simp, ?_⟩
  · simp only [UrlCounter.count, hcnt, hn]
  · simp only [UrlCounter.count, mapGet_mapSet_self]

/-- C1, as stated, fails on Go's `int`: at the largest 64-bit value the
increment wraps, so the stored count becomes -2^63 instead of growing by one
(and the call returns false); and on the nil map of a zero-value `UrlCounter`
the call panics. -/
theorem isVisited_wraps_at_max :
    (∃ m1, UrlCounter.isVisited 64 ⟨some (fun _ => some 9223372036854775807)⟩ "A"
        = some (⟨some m1⟩, false) ∧
      mapGet m1 "A" = -9223372036854775808 ∧
      mapGet m1 "A" ≠ 9223372036854775807 + 1) ∧
    UrlCounter.isVisited 64 ⟨none⟩ "A" = none := by
  refine ⟨⟨_, rfl, ?_, ?_⟩, rfl⟩
  · decide
  · decide

/-- C1, amended: on a made map and for a url whose stored count is an `int`
below the largest one, one call of `isVisited` adds exactly one to the count
of the url (an absent url becomes 1), keeps every other entry, and returns
true exactly when the count after the increment exceeds 1. -/
theorem isVisited_below_max (w : Nat) (hw : 1 ≤ w) (m : CountMap) (url : String)
    (hlo : minInt w ≤ mapGet m url) (hhi : mapGet m url < maxInt w) :
    ∃ m1 b, UrlCounter.isVisited w ⟨some m⟩ url = some (⟨some m1⟩, b) ∧
      mapGet m1 url = mapGet m url + 1 ∧
      (m url = none → m1 url = some 1) ∧
      (∀ k, k ≠ url → m1 k = m k) ∧
      (b = true ↔ 1 < mapGet m1 url) := by
  refine ⟨_, _, isVisited_agrees w hw m url (by omega) hhi, isVisited_get_self m url, ?_, ?_, ?_⟩
  · intro h
    rw [isVisited_fst]
    simp [mapSet, mapGet, h]
  · intro k hk
    rw [isVisited_fst]
    simp [mapSet, hk]
  · rw [isVisited_snd, isVisited_get_self]
    simp only [decide_eq_true_eq]
    omega

/-- A first call for A and a second one, with 64-bit `int`. -/
theorem isVisited_below_max_witness :
    (∃ m1, UrlCounter.isVisited 64 ⟨some emptyMap⟩ "A" = some (⟨some m1⟩, false) ∧
      m1 "A" = some 1) ∧
    (∃ m1 b, UrlCounter.isVisited 64 ⟨some (mapSet emptyMap "A" 1)⟩ "A" = some (⟨some m1⟩, b) ∧
      mapGet m1 "A" = mapGet (mapSet emptyMap "A" 1) "A" + 1 ∧
      (b = true ↔ 1 < mapGet m1 "A")) := by
  refine ⟨⟨_, rfl, by decide⟩, ?_⟩
  obtain ⟨m1, b, h1, h2, _, _, h5⟩ :=
    isVisited_below_max 64 (by decide) (mapSet emptyMap "A" 1) "A" (by decide) (by decide)
  exact ⟨m1, b, h1, h2, h5⟩

/-- C2, as stated, fails on Go's `int`: after 2^63 - 1 calls for A on a fresh
map the count is 2^63 - 1; the next call for A wraps it to -2^63 and returns
false, so a later call returns false, the count is not the number of calls,
and it has decreased. -/
theorem isVisited_sequence_wraps :
    ∃ u0 bs0 u bs,
      UrlCounter.visitAll 64 ⟨some emptyMap⟩ (List.replicate 9223372036854775807 "A")
        = some (u0, bs0) ∧
      u0.count "A" = 9223372036854775807 ∧
      UrlCounter.visitAll 64 ⟨some emptyMap⟩ (List.replicate (9223372036854775807 + 1) "A")
        = some (u, bs) ∧
      bs.getLast? = some false ∧
      u.count "A" = -9223372036854775808 := by
  obtain ⟨u0, bs0, u, bs, h1, h2, h3, h4, h5⟩ :=
    visitAll_wraps 64 (by decide) "A" 9223372036854775807 (by decide)
  have h6 : minInt 64 = -9223372036854775808 := by decide
  exact ⟨u0, bs0, u, bs, h1, by rw [h2]; rfl, h3, h4, by rw [h5, h6]⟩

/-- C2, amended: in a serial sequence of `isVisited` calls on a fresh made map
in which no url is called more often than the largest `int`, a call returns
true exactly when its url was the url of an earlier call (so the first call
for a url returns false and all later ones true); the count of a url is the
number of calls made for it so far, and never decreases. -/
theorem isVisited_sequence_bounded (w : Nat) (hw : 1 ≤ w) (calls : List String)
    (hb : ∀ url, (calls.count url : Int) ≤ maxInt w) :
    ∃ u bs, UrlCounter.visitAll w ⟨some emptyMap⟩ calls = some (u, bs) ∧
      bs.length = calls.length ∧
      (∀ (i : Nat) (h : i < calls.length), bs[i]? = some (decide (calls[i] ∈ calls.take i))) ∧
      (∀ (k : Nat) (url : String), ∃ uk bk,
        UrlCounter.visitAll w ⟨some emptyMap⟩ (calls.take k) = some (uk, bk) ∧
        uk.count url = ((calls.take k).count url : Int)) ∧
      (∀ (k : Nat) (url : String) (uk uk1 : UrlCounter) (bk bk1 : List Bool),
        UrlCounter.visitAll w ⟨some emptyMap⟩ (calls.take k) = some (uk, bk) →
        UrlCounter.visitAll w ⟨some emptyMap⟩ (calls.take (k + 1)) = some (uk1, bk1) →
        uk.count url ≤ uk1.count url) := by
  have hpre : ∀ k : Nat, UrlCounter.visitAll w ⟨some emptyMap⟩ (calls.take k)
      = some (⟨some (visitAll emptyMap (calls.take k)).1⟩, (visitAll emptyMap (calls.take k)).2) := by
    intro k
    refine visitAll_agrees w hw _ emptyMap (fun url => by rw [emptyMap_get]) (fun url => ?_)
    rw [emptyMap_get, zero_add]
    have h1 := (List.take_sublist k calls).count_le url
    have h2 := hb url
    have h3 : ((calls.take k).count url : Int) ≤ (calls.count url : Int) := by exact_mod_cast h1
    omega
  have hall := hpre calls.length
  rw [List.take_length] at hall
  refine ⟨_, _, hall, visitAll_length calls _, visitAll_first calls, ?_, ?_⟩
  · intro k url
    exact ⟨_, _, hpre k, by simp only [UrlCounter.count]; exact visitAll_count _ url⟩
  · intro k url uk uk1 bk bk1 h1 h2
    rw [hpre k, Option.some.injEq, Prod.mk.injEq] at h1
    rw [hpre (k + 1), Option.some.injEq, Prod.mk.injEq] at h2
    rw [← h1.1, ← h2.1]
    simp only [UrlCounter.count, visitAll_count, Nat.cast_le]
    exact (List.take_sublist_take_left calls (Nat.le_succ k)).count_le url

/-- The calls A, B, A, A, B on a fresh map, with 64-bit `int`. -/
theorem isVisited_sequence_bounded_witness :
    ∃ u, UrlCounter.visitAll 64 ⟨some emptyMap⟩ ["A", "B", "A", "A", "B"]
        = some (u, [false, false, true, true, true]) ∧ u.count "A" = 3 := by
  obtain ⟨u, bs, h1, _, _, h4, _⟩ :=
    isVisited_sequence_bounded 64 (by decide) ["A", "B", "A", "A", "B"] (fun url => by
      have h1 := List.count_le_length url ["A", "B", "A", "A", "B"]
      have h2 : maxInt 64 = 9223372036854775807 := by decide
      have h3 : ((List.count url ["A", "B", "A", "A", "B"] : Nat) : Int) ≤ 5 := by
        exact_mod_cast h1
      omega)
  obtain ⟨uk, bk, h5, h6⟩ := h4 5 "A"
  exact ⟨_, rfl, by decide⟩

end Crawler

namespace Crawler

/-! ## The scenario graphs -/

theorem scenario_level0 : level scenario.Fetch "A" 0 = ["A"] := rfl

theorem scenario_level1 : level scenario.Fetch "A" 1 = ["B", "C"] := by decide

theorem scenario_separated : DepthSeparated scenario.Fetch "A" 2 := by
  unfold DepthSeparated
  decide

theorem scenario_reach (u : String) :
    (∃ k : Nat, (k : Int) + 1 ≤ 2 ∧ u ∈ level scenario.Fetch "A" k) ↔ u ∈ ["A", "B", "C"] := by
  constructor
  · rintro ⟨k, hk, hu⟩
    have hk2 : k = 0 ∨ k = 1 := by omega
    rcases hk2 with rfl | rfl
    · rw [scenario_level0] at hu
      simp only [List.mem_singleton] at hu
      simp [hu]
    · rw [scenario_level1] at hu
      simp only [List.mem_cons, List.mem_singleton, List.not_mem_nil, or_false] at hu
      rcases hu with rfl | rfl <;> simp
  · intro hu
    simp only [List.mem_cons, List.mem_singleton, List.not_mem_nil, or_false] at hu
    rcases hu with rfl | rfl | rfl
    · exact ⟨0, by norm_num, by rw [scenario_level0]; simp⟩
    · exact ⟨1, by norm_num, by rw [scenario_level1]; simp⟩
    · exact ⟨1, by norm_num, by rw [scenario_level1]; simp⟩

theorem scenario_complete (sched : List Nat) (s : State)
    (h : run scenario.Fetch (initState "A" 2) sched = some s) (hpool : s.pool = []) :
    s.out.Perm [.found "A" "a", .found "B" "b", .found "C" "c"] ∧
    s.fetched.Perm ["A", "B", "C"] := by
  obtain ⟨hD, hC, hP⟩ := inv_run _ _ _ sched s h
  constructor
  · rw [List.perm_ext_iff_of_nodup (List.Nodup.of_map _ (out_urls_nodup s hC)) (by decide)]
    intro e
    rw [out_iff _ _ _ sched s h hpool scenario_separated, scenario_reach]
    constructor
    · rintro ⟨h1, h2⟩
      simp only [List.mem_cons, List.mem_singleton, List.not_mem_nil, or_false] at h1
      rcases h1 with h1 | h1 | h1 <;> rw [h1] at h2 <;> rw [h2] <;> decide
    · intro h1
      simp only [List.mem_cons, List.mem_singleton, List.not_mem_nil, or_false] at h1
      rcases h1 with rfl | rfl | rfl <;> decide
  · rw [List.perm_ext_iff_of_nodup (fetched_nodup s hC) (by decide)]
    intro u
    rw [fetched_iff _ _ _ sched s h hpool scenario_separated, scenario_reach]

/-! ## The claims on Crawl -/

/-- C3: in every execution of `Crawl` on a fresh counter, `Fetch` is called at
most once per url, so every url is printed at most once, and only after its one
fetch; in the scenario A→[B,C], B→[A], C→[] with depth 2 every complete
execution fetches A, B and C once each and prints exactly their three
contents. -/
theorem fetch_at_most_once :
    (∀ (f : Fetcher) (root : String) (d : Int) (sched : List Nat) (s : State),
      run f (initState root d) sched = some s →
        s.fetched.Nodup ∧ (s.out.map Event.url).Nodup ∧ ∀ e ∈ s.out, e.url ∈ s.fetched) ∧
    (∀ (sched : List Nat) (s : State),
      run scenario.Fetch (initState "A" 2) sched = some s → s.pool = [] →
        s.out.Perm [.found "A" "a", .found "B" "b", .found "C" "c"] ∧
        s.fetched.Perm ["A", "B", "C"]) := by
  refine ⟨?_, scenario_complete⟩
  intro f root d sched s h
  obtain ⟨_, hC, _⟩ := inv_run f root d sched s h
  exact ⟨fetched_nodup s hC, out_urls_nodup s hC, out_sub_fetched s hC⟩

/-- The scenario, each task run to its end in turn. -/
theorem fetch_at_most_once_witness :
    ∃ s, run scenario.Fetch (initState "A" 2) (List.replicate 20 0) = some s ∧ s.pool = [] ∧
      s.out.Perm [.found "A" "a", .found "B" "b", .found "C" "c"] ∧
      s.fetched.count "A" = 1 :=
  ⟨_, rfl, rfl, (fetch_at_most_once.2 (List.replicate 20 0) _ rfl rfl).1,
    ((fetch_at_most_once.2 (List.replicate 20 0) _ rfl rfl).2.count_eq "A").trans (by decide)⟩

/-- C4: a task whose url is `k` links from the root has depth `d - k`; only a
task of depth at least 1 fetches, so a fetched url is at most `d - 1` links
from the root; with `d ≤ 0` nothing is fetched, printed or spawned. -/
theorem depth_bound (f : Fetcher) (root : String) (d : Int) (sched : List Nat) (s : State)
    (h : run f (initState root d) sched = some s) :
    (∀ t ∈ s.pool, ∃ k : Nat, t.depth = d - k ∧ t.url ∈ level f root k) ∧
    (∀ t ∈ s.pool, t.pc ≠ .entry → t.pc ≠ .exiting → 1 ≤ t.depth) ∧
    (∀ (i : Nat) (t : Task) (s1 : State), s.pool[i]? = some t → step f s i = some s1 →
      s1.fetched ≠ s.fetched → 1 ≤ t.depth ∧ s1.fetched = s.fetched ++ [t.url]) ∧
    (∀ u ∈ s.fetched, ∃ k : Nat, (k : Int) ≤ d - 1 ∧ u ∈ level f root k) ∧
    (d ≤ 0 → s.fetched = [] ∧ s.out = [] ∧ s.adds = 1) := by
  obtain ⟨hD, hC, _⟩ := inv_run f root d sched s h
  have hpos : ∀ t ∈ s.pool, t.pc ≠ .entry → t.pc ≠ .exiting → 1 ≤ t.depth := by
    intro t ht h1 h2
    have := (hD.tasks t ht).2
    obtain ⟨u, k, pc⟩ := t
    cases pc with
    | entry => exact absurd rfl h1
    | exiting => exact absurd rfl h2
    | fetching => exact this
    | reporting r => exact this.1
    | spawning rest => exact this.1
  refine ⟨?_, hpos, ?_, ?_, ?_⟩
  · intro t ht
    obtain ⟨⟨k, h1, h2, _⟩, _⟩ := hD.tasks t ht
    exact ⟨k, h1, h2⟩
  · intro i t s1 hi hs hne
    have ht : t ∈ s.pool := by
      obtain ⟨l1, l2, e, _⟩ := getElem?_split _ _ _ hi
      simp [e]
    simp only [step, hi, Option.some.injEq] at hs
    subst hs
    obtain ⟨u, k, pc⟩ := t
    cases pc with
    | fetching => exact ⟨hpos _ ht (by simp) (by simp), by simp [Crawl]⟩
    | entry =>
      exfalso; apply hne
      simp only [Crawl]; split
      · rfl
      · split <;> rfl
    | reporting r =>
      exfalso; apply hne
      simp only [Crawl]; split <;> rfl
    | spawning rest =>
      exfalso; apply hne
      cases rest <;> rfl
    | exiting => exact absurd rfl hne
  · intro u hu
    obtain ⟨k, h1, h2⟩ := hD.fetched u hu
    exact ⟨k, by omega, h2⟩
  · intro hd
    obtain ⟨h1, h2, _⟩ := hD.quiet hd
    refine ⟨?_, h2, h1⟩
    cases hf : s.fetched with
    | nil => rfl
    | cons u l =>
      obtain ⟨k, h3, _⟩ := hD.fetched u (by simp [hf])
      omega

/-- The scenario after the root was fetched and both children spawned. -/
theorem depth_bound_witness :
    ∃ s, run scenario.Fetch (initState "A" 2) [0, 0, 0, 0, 0, 1, 1] = some s ∧
      ∀ u ∈ s.fetched, ∃ k : Nat, (k : Int) ≤ 2 - 1 ∧ u ∈ level scenario.Fetch "A" k :=
  ⟨_, rfl, (depth_bound scenario.Fetch "A" 2 [0, 0, 0, 0, 0, 1, 1] _ rfl).2.2.2.1⟩

/-- C5: every execution of `Crawl` is finite: it makes at most
`cost f d root` actions and creates at most that many tasks more than the
root; no task ever blocks, so an execution that cannot go on has an empty
pool, every execution can be run on to an empty pool, and no infinite schedule
exists. -/
theorem crawl_terminates (f : Fetcher) (root : String) (d : Int) (sched : List Nat) (s : State)
    (h : run f (initState root d) sched = some s) :
    sched.length ≤ cost f d.toNat root ∧
    s.adds ≤ 1 + cost f d.toNat root ∧
    (∀ i, i < s.pool.length → ∃ s1, step f s i = some s1) ∧
    ((∀ i, step f s i = none) → s.pool = []) ∧
    (∃ m s1, run f s (List.replicate m 0) = some s1 ∧ s1.pool = []) ∧
    (∀ σ : Nat → Nat, ∃ n, run f (initState root d) ((List.range n).map σ) = none) := by
  obtain ⟨h1, h2⟩ := pot_run f sched _ s h
  rw [pot_init] at h1
  refine ⟨by omega, ?_, step_enabled f s, ?_, run_to_end f _ s le_rfl, ?_⟩
  · simp only [initState] at h2
    omega
  · intro hn
    have := (step_none_iff f s 0).mp (hn 0)
    exact List.length_eq_zero.mp (by omega)
  · intro σ
    refine ⟨cost f d.toNat root + 1, ?_⟩
    cases hr : run f (initState root d) ((List.range (cost f d.toNat root + 1)).map σ) with
    | none => rfl
    | some s2 =>
      have := (pot_run f _ _ s2 hr).1
      rw [pot_init] at this
      simp only [List.length_map, List.length_range] at this
      omega

/-- The crawl of `main` with the populated fetcher, the first task of the pool
run each time: a complete execution of 46 actions. -/
theorem crawl_terminates_witness :
    ∃ s, run fetcher.Fetch (initState "https://golang.org/" 4) (List.replicate 46 0) = some s ∧
      s.pool = [] ∧
      (List.replicate 46 0).length ≤ cost fetcher.Fetch (4 : Int).toNat "https://golang.org/" :=
  ⟨_, rfl, rfl,
    (crawl_terminates fetcher.Fetch "https://golang.org/" 4 (List.replicate 46 0) _ rfl).1⟩

theorem done_step (f : Fetcher) (s s1 : State) (h : Step f s s1) :
    (s1.dones = s.dones + 1 ∧ s1.pool.length + 1 = s.pool.length ∧ s1.adds = s.adds) ∨
    (s1.dones = s.dones ∧ s.pool.length ≤ s1.pool.length) := by
  cases h with
  | done l1 l2 u k hp => left; simp [hp]; omega
  | spawn l1 l2 u k c rest hp => right; simp [hp]
  | visited l1 l2 u k hp hv => right; simp [hp]
  | exhausted l1 l2 u k hp hv hk => right; simp [hp]
  | claimed l1 l2 u k hp hv hk => right; simp [hp]
  | fetch l1 l2 u k hp => right; simp [hp]
  | reportErr l1 l2 u k r e hp he => right; simp [hp]
  | reportOk l1 l2 u k r hp he => right; simp [hp]
  | loopEnd l1 l2 u k hp => right; simp [hp]

/-- C6: in every execution started as `main` starts it, the WaitGroup counter
equals the number of tasks in the pool and is never negative; the number of
`Add(1)` calls is the number of `Done()` calls plus the number of tasks still
in the pool, a task leaving the pool only by its one `Done()`, which is the
one action left to a task that has returned; so when the counter is zero and
`Wait` returns, the pool is empty and there were as many `Done()` as `Add(1)`
calls, and every execution can be run on to such a state. -/
theorem waitgroup_counter (f : Fetcher) (root : String) (d : Int) (sched : List Nat) (s : State)
    (h : run f (initState root d) sched = some s) :
    s.wg = s.pool.length ∧ 0 ≤ s.wg ∧ s.adds = s.dones + s.pool.length ∧
    (waitReturns s ↔ s.pool = []) ∧
    (waitReturns s → s.dones = s.adds) ∧
    (∀ (i : Nat) (s1 : State), step f s i = some s1 →
      (s1.dones = s.dones + 1 ∧ s1.pool.length + 1 = s.pool.length ∧ s1.adds = s.adds) ∨
      (s1.dones = s.dones ∧ s.pool.length ≤ s1.pool.length)) ∧
    (∀ (l1 l2 : List Task) (u : String) (k : Int), s.pool = l1 ++ ⟨u, k, .exiting⟩ :: l2 →
      step f s l1.length
        = some { s with wg := s.wg - 1, dones := s.dones + 1, pool := l1 ++ l2 }) ∧
    (∃ m s1, run f s (List.replicate m 0) = some s1 ∧ waitReturns s1 ∧ s1.dones = s1.adds) := by
  obtain ⟨h1, h2⟩ := counterInv_run f root d sched s h
  refine ⟨h1, by omega, h2, ?_, ?_, fun i s1 hs => done_step f s s1 (step_sound f s s1 i hs),
    ?_, ?_⟩
  · unfold waitReturns
    rw [h1, ← List.length_eq_zero]
    omega
  · unfold waitReturns
    intro h0
    omega
  · intro l1 l2 u k hp
    rw [step_at f s l1 l2 _ hp]
    simp [Crawl, hp, eraseIdx_split]
  · obtain ⟨m, s1, h3, h4⟩ := run_to_end f _ s le_rfl
    have h5 : run f (initState root d) (sched ++ List.replicate m 0) = some s1 := by
      rw [run_append, h]
      exact h3
    obtain ⟨h6, h7⟩ := counterInv_run f root d _ s1 h5
    refine ⟨m, s1, h3, ?_, ?_⟩
    · unfold waitReturns
      rw [h6, h4]
      rfl
    · rw [h7, h4]
      rfl

/-- The scenario at its end: the counter is back to zero after four `Add(1)`
and four `Done()`. -/
theorem waitgroup_counter_witness :
    ∃ s, run scenario.Fetch (initState "A" 2) (List.replicate 20 0) = some s ∧
      s.wg = 0 ∧ s.dones = s.adds ∧ s.adds = 4 :=
  ⟨_, rfl, rfl,
    (waitgroup_counter scenario.Fetch "A" 2 (List.replicate 20 0) _ rfl).2.2.2.2.1 rfl, rfl⟩

end Crawler

namespace Crawler

/-! ## Schedules and the set of outputs -/

/-- C7, as stated, fails. On A→[B,C], B→[C], C→[D], D→[] with depth 3, C is
claimed by whichever of its two tasks runs first: when that is the task B
spawns (depth 1) rather than the one A spawns (depth 2), the link D of C is
spawned with depth 0 and never fetched. The two complete executions print
different sets of lines. -/
theorem output_set_depends_on_schedule :
    ∃ s1 s2,
      run chain.Fetch (initState "A" 3)
        [0, 0, 0, 0, 0, 1, 1, 1, 1, 3, 3, 3, 3, 0, 0, 0, 0, 0, 0, 0, 0, 0, 0] = some s1 ∧
      s1.pool = [] ∧
      run chain.Fetch (initState "A" 3) (List.replicate 26 0) = some s2 ∧ s2.pool = [] ∧
      s1.out = [.found "A" "a", .found "B" "b", .found "C" "c"] ∧
      s2.out = [.found "A" "a", .found "B" "b", .found "C" "c", .found "D" "d"] ∧
      ¬ (∀ e, e ∈ s1.out ↔ e ∈ s2.out) :=
  ⟨_, _, rfl, rfl, rfl, rfl, rfl, rfl,
    fun h => absurd ((h (.found "D" "d")).2 (by decide)) (by decide)⟩

/-- C7, amended: two complete executions print the same set of lines when no
url is at the end both of a chain of exactly `d` links from the root that
passes no url twice and of such a chain of fewer links; in every case they
print the same line for every url both print, and both print the line of the
root when the depth is positive. -/
theorem output_set_deterministic (f : Fetcher) (root : String) (d : Int)
    (sched1 sched2 : List Nat) (s1 s2 : State)
    (h1 : run f (initState root d) sched1 = some s1) (hp1 : s1.pool = [])
    (h2 : run f (initState root d) sched2 = some s2) (hp2 : s2.pool = []) :
    (SimpleSeparated f root d → ∀ e, e ∈ s1.out ↔ e ∈ s2.out) ∧
    (∀ e1 ∈ s1.out, ∀ e2 ∈ s2.out, e1.url = e2.url → e1 = e2) ∧
    (0 < d → eventOf root (f root) ∈ s1.out ∧ eventOf root (f root) ∈ s2.out) := by
  obtain ⟨hD1, hC1, hP1⟩ := inv_run f root d sched1 s1 h1
  obtain ⟨hD2, hC2, hP2⟩ := inv_run f root d sched2 s2 h2
  have hurl : ∀ (u : String) (r : FetchResult), (eventOf u r).url = u := by
    intro u r
    unfold eventOf
    split <;> rfl
  refine ⟨?_, ?_, ?_⟩
  · intro hsep e
    rw [out_iff_simple f root d sched1 s1 h1 hp1 hsep,
      out_iff_simple f root d sched2 s2 h2 hp2 hsep]
  · intro e1 he1 e2 he2 hu
    rw [hD1.events e1 he1, hD2.events e2 he2, hu]
  · intro hd
    constructor
    · rw [out_complete f root d s1 hD1 hC1 hp1, hurl]
      exact ⟨root_fetched f root d s1 hP1 hp1 hd, rfl⟩
    · rw [out_complete f root d s2 hD2 hC2 hp2, hurl]
      exact ⟨root_fetched f root d s2 hP2 hp2 hd, rfl⟩

theorem some_getD {α : Type} (o : Option α) (x : α) (h : o.isSome = true) :
    o = some (o.getD x) := by
  cases o with
  | none => simp at h
  | some a => rfl

theorem main_separated : SimpleSeparated fetcher.Fetch "https://golang.org/" 4 := by
  unfold SimpleSeparated
  decide

set_option maxRecDepth 4000 in
/-- The crawl of `main` run in two orders, the second with the task for
https://golang.org/cmd/ ahead of the task for https://golang.org/pkg/: the
lines come in different orders and are the same set. -/
theorem output_set_deterministic_witness :
    ∃ s1 s2,
      run fetcher.Fetch (initState "https://golang.org/" 4) (List.replicate 46 0) = some s1 ∧
      s1.pool = [] ∧
      run fetcher.Fetch (initState "https://golang.org/" 4)
        (List.replicate 5 0 ++ (List.replicate 4 2 ++ List.replicate 37 0)) = some s2 ∧
      s2.pool = [] ∧
      s1.out ≠ s2.out ∧ ∀ e, e ∈ s1.out ↔ e ∈ s2.out := by
  have h1 := some_getD (run fetcher.Fetch (initState "https://golang.org/" 4)
    (List.replicate 46 0)) (initState "" 0) (by decide)
  have h2 := some_getD (run fetcher.Fetch (initState "https://golang.org/" 4)
    (List.replicate 5 0 ++ (List.replicate 4 2 ++ List.replicate 37 0))) (initState "" 0)
    (by decide)
  refine ⟨_, _, h1, by decide, h2, by decide, by decide,
    (output_set_deterministic fetcher.Fetch "https://golang.org/" 4 _ _ _ _
      h1 (by decide) h2 (by decide)).1 main_separated⟩

end Crawler

namespace Crawler

/-! ## One task among the others -/

/-- An action of the task at an index changes that slot alone: the tasks
before and after it stay in place, new goroutines come last. -/
theorem pool_frame (f : Fetcher) (s s1 : State) (l1 l2 : List Task) (t : Task)
    (hp : s.pool = l1 ++ t :: l2) (hs : step f s l1.length = some s1) :
    ∃ mid new, s1.pool = l1 ++ mid ++ l2 ++ new ∧ mid.length ≤ 1 ∧
      s1.adds = s.adds + new.length := by
  rw [step_at f s l1 l2 t hp, Option.some.injEq] at hs
  subst hs
  obtain ⟨u, k, pc⟩ := t
  cases pc with
  | entry =>
    simp only [Crawl]
    split
    · exact ⟨[⟨u, k, .exiting⟩], [], by simp [hp, set_split], by simp, by simp⟩
    · split
      · exact ⟨[⟨u, k, .exiting⟩], [], by simp [hp, set_split], by simp, by simp⟩
      · exact ⟨[⟨u, k, .fetching⟩], [], by simp [hp, set_split], by simp, by simp⟩
  | fetching =>
    exact ⟨[⟨u, k, .reporting (f u)⟩], [], by simp [Crawl, hp, set_split], by simp,
      by simp [Crawl]⟩
  | reporting r =>
    simp only [Crawl]
    split
    · exact ⟨[⟨u, k, .exiting⟩], [], by simp [hp, set_split], by simp, by simp⟩
    · exact ⟨[⟨u, k, .spawning r.urls⟩], [], by simp [hp, set_split], by simp, by simp⟩
  | spawning rest =>
    cases rest with
    | nil =>
      exact ⟨[⟨u, k, .exiting⟩], [], by simp [Crawl, hp, set_split], by simp,
        by simp [Crawl]⟩
    | cons c rest =>
      exact ⟨[⟨u, k, .spawning rest⟩], [⟨c, k - 1, .entry⟩],
        by simp [Crawl, hp, set_split], by simp, by simp [Crawl]⟩
  | exiting =>
    exact ⟨[], [], by simp [Crawl, hp, eraseIdx_split], by simp, by simp [Crawl]⟩

theorem failing_entry (f : Fetcher) (X : String) (k : Int) (hk : 0 < k) (s : State)
    (l1 l2 : List Task) (hp : s.pool = l1 ++ ⟨X, k, .entry⟩ :: l2) (hv : mapGet s.v X < 1) :
    step f s l1.length
      = some { s with v := (isVisited s.v X).1, pool := l1 ++ ⟨X, k, .fetching⟩ :: l2 } := by
  have hv1 : ¬ 1 ≤ mapGet s.v X := by omega
  have hk1 : ¬ k ≤ 0 := by omega
  rw [step_at f s l1 l2 _ hp]
  simp [Crawl, hp, set_split, isVisited_snd, hv1, hk1]

theorem failing_fetch (f : Fetcher) (X : String) (k : Int) (s : State)
    (l1 l2 : List Task) (hp : s.pool = l1 ++ ⟨X, k, .fetching⟩ :: l2) :
    step f s l1.length
      = some { s with fetched := s.fetched ++ [X],
                      pool := l1 ++ ⟨X, k, .reporting (f X)⟩ :: l2 } := by
  rw [step_at f s l1 l2 _ hp]
  simp [Crawl, hp, set_split]

theorem failing_report (f : Fetcher) (X : String) (k : Int) (e : String)
    (he : (f X).err = some e) (s : State)
    (l1 l2 : List Task) (hp : s.pool = l1 ++ ⟨X, k, .reporting (f X)⟩ :: l2) :
    step f s l1.length
      = some { s with out := s.out ++ [.failed X e], pool := l1 ++ ⟨X, k, .exiting⟩ :: l2 } := by
  rw [step_at f s l1 l2 _ hp]
  simp [Crawl, hp, set_split, he]

theorem exiting_done (f : Fetcher) (X : String) (k : Int) (s : State)
    (l1 l2 : List Task) (hp : s.pool = l1 ++ ⟨X, k, .exiting⟩ :: l2) :
    step f s l1.length
      = some { s with wg := s.wg - 1, dones := s.dones + 1, pool := l1 ++ l2 } := by
  rw [step_at f s l1 l2 _ hp]
  simp [Crawl, hp, eraseIdx_split]

/-- C8: a task for a url X whose fetch fails, X being reached at positive depth
and not yet visited, takes four actions from whatever states the other tasks
leave it in: it claims X, fetches, prints exactly the error, and calls `Done`;
it prints no `found` line and spawns no child, and no action of a task changes
another task of the pool; in every execution the only line for X is its error,
at most once, and the execution is finite. The fake fetcher fails, with
"not found: url", exactly for the urls that are not keys of its map. -/
theorem fetch_failure_local (f : Fetcher) (X : String) (k : Int) (e : String)
    (he : (f X).err = some e) (hk : 0 < k) :
    (∀ (s : State) (l1 l2 : List Task),
      s.pool = l1 ++ ⟨X, k, .entry⟩ :: l2 → mapGet s.v X < 1 →
      step f s l1.length
        = some { s with v := (isVisited s.v X).1, pool := l1 ++ ⟨X, k, .fetching⟩ :: l2 }) ∧
    (∀ (s : State) (l1 l2 : List Task), s.pool = l1 ++ ⟨X, k, .fetching⟩ :: l2 →
      step f s l1.length
        = some { s with fetched := s.fetched ++ [X],
                        pool := l1 ++ ⟨X, k, .reporting (f X)⟩ :: l2 }) ∧
    (∀ (s : State) (l1 l2 : List Task), s.pool = l1 ++ ⟨X, k, .reporting (f X)⟩ :: l2 →
      step f s l1.length
        = some { s with out := s.out ++ [.failed X e],
                        pool := l1 ++ ⟨X, k, .exiting⟩ :: l2 }) ∧
    (∀ (s : State) (l1 l2 : List Task), s.pool = l1 ++ ⟨X, k, .exiting⟩ :: l2 →
      step f s l1.length
        = some { s with wg := s.wg - 1, dones := s.dones + 1, pool := l1 ++ l2 }) ∧
    (∀ (s : State) (l1 l2 : List Task),
      s.pool = l1 ++ ⟨X, k, .entry⟩ :: l2 → mapGet s.v X < 1 →
      run f s [l1.length, l1.length, l1.length, l1.length]
        = some { v := (isVisited s.v X).1, wg := s.wg - 1, pool := l1 ++ l2,
                 fetched := s.fetched ++ [X], out := s.out ++ [.failed X e],
                 adds := s.adds, dones := s.dones + 1 }) ∧
    (∀ (s s1 : State) (l1 l2 : List Task) (t : Task),
      s.pool = l1 ++ t :: l2 → step f s l1.length = some s1 →
      ∃ mid new, s1.pool = l1 ++ mid ++ l2 ++ new ∧ mid.length ≤ 1 ∧
        s1.adds = s.adds + new.length) ∧
    (∀ (root : String) (d : Int) (sched : List Nat) (s : State),
      run f (initState root d) sched = some s →
      (∀ ev ∈ s.out, ev.url = X → ev = .failed X e) ∧
      (s.out.map Event.url).count X ≤ 1 ∧
      sched.length ≤ cost f d.toNat root ∧
      ∃ m s1, run f s (List.replicate m 0) = some s1 ∧ s1.pool = []) ∧
    (∀ (ff : fakeFetcher) (url : String),
      ((ff.Fetch url).err = some ("not found: " ++ url) ↔ ff url = none) ∧
      ((ff.Fetch url).err = none ↔ ff url ≠ none)) := by
  refine ⟨failing_entry f X k hk, failing_fetch f X k, failing_report f X k e he,
    exiting_done f X k, ?_, pool_frame f, ?_, ?_⟩
  · intro s l1 l2 hp hv
    simp only [run]
    rw [failing_entry f X k hk s l1 l2 hp hv]
    simp only
    rw [failing_fetch f X k _ l1 l2 rfl]
    simp only
    rw [failing_report f X k e he _ l1 l2 rfl]
    simp only
    rw [exiting_done f X k _ l1 l2 rfl]
  · intro root d sched s h
    obtain ⟨hD, hC, _⟩ := inv_run f root d sched s h
    refine ⟨?_, ?_, ?_, run_to_end f _ s le_rfl⟩
    · intro ev hev hu
      rw [hD.events ev hev, hu]
      simp [eventOf, he]
    · exact List.nodup_iff_count_le_one.mp (out_urls_nodup s hC) X
    · have := (pot_run f sched _ s h).1
      rw [pot_init] at this
      omega
  · intro ff url
    unfold fakeFetcher.Fetch
    cases ff url <;> simp

/-- The populated fetcher has no entry for https://golang.org/cmd/: its task,
spawned by the root, fails alone, and its sibling is left in place. -/
theorem fetch_failure_local_witness :
    ∃ s s4, run fetcher.Fetch (initState "https://golang.org/" 4) [0, 0, 0, 0, 0] = some s ∧
      s.pool = [⟨"https://golang.org/", 4, .spawning []⟩, ⟨"https://golang.org/pkg/", 3, .entry⟩,
                ⟨"https://golang.org/cmd/", 3, .entry⟩] ∧
      run fetcher.Fetch s [2, 2, 2, 2] = some s4 ∧
      s4.pool = [⟨"https://golang.org/", 4, .spawning []⟩, ⟨"https://golang.org/pkg/", 3, .entry⟩] ∧
      s4.out = s.out ++ [.failed "https://golang.org/cmd/" "not found: https://golang.org/cmd/"] ∧
      s4.adds = s.adds ∧ s4.dones = s.dones + 1 :=
  ⟨_, _, rfl, rfl,
    (fetch_failure_local fetcher.Fetch "https://golang.org/cmd/" 3
      "not found: https://golang.org/cmd/" (by decide) (by decide)).2.2.2.2.1 _
      [⟨"https://golang.org/", 4, .spawning []⟩, ⟨"https://golang.org/pkg/", 3, .entry⟩] []
      rfl (by decide),
    rfl, rfl, rfl, rfl⟩

end Crawler

namespace Crawler

/-! ## The visited check comes first -/

theorem count_mono_step (f : Fetcher) (u : String) (s s1 : State) (h : Step f s s1) :
    mapGet s.v u ≤ mapGet s1.v u := by
  cases h <;> first | exact isVisited_mono _ _ _ | exact le_rfl

/-- A url claimed by a task that did not go on to fetch stays unfetched. -/
theorem never_fetched_step (f : Fetcher) (u : String) (s s1 : State)
    (hI : 1 ≤ mapGet s.v u ∧ u ∉ s.fetched ∧ ∀ j, (⟨u, j, .fetching⟩ : Task) ∉ s.pool)
    (h : Step f s s1) :
    1 ≤ mapGet s1.v u ∧ u ∉ s1.fetched ∧ ∀ j, (⟨u, j, .fetching⟩ : Task) ∉ s1.pool := by
  obtain ⟨h1, h2, h3⟩ := hI
  have hm := count_mono_step f u s s1 h
  refine ⟨by omega, ?_, ?_⟩
  · cases h with
    | fetch l1 l2 x k hp =>
      simp only [List.mem_append, List.mem_singleton, not_or]
      refine ⟨h2, ?_⟩
      rintro rfl
      exact h3 k (by simp [hp])
    | _ => exact h2
  · intro j hj
    cases h with
    | claimed l1 l2 x k hp hv hk =>
      simp only [List.mem_append, List.mem_cons, Task.mk.injEq, and_true] at hj
      rcases hj with hj | ⟨rfl, _⟩ | hj
      · exact h3 j (by simp [hp, hj])
      · omega
      · exact h3 j (by simp [hp, hj])
    | visited l1 l2 x k hp hv =>
      simp only [List.mem_append, List.mem_cons, Task.mk.injEq, reduceCtorEq, and_false,
        false_or] at hj
      exact h3 j (by simp only [hp, List.mem_append, List.mem_cons]; tauto)
    | exhausted l1 l2 x k hp hv hk =>
      simp only [List.mem_append, List.mem_cons, Task.mk.injEq, reduceCtorEq, and_false,
        false_or] at hj
      exact h3 j (by simp only [hp, List.mem_append, List.mem_cons]; tauto)
    | fetch l1 l2 x k hp =>
      simp only [List.mem_append, List.mem_cons, Task.mk.injEq, reduceCtorEq, and_false,
        false_or] at hj
      exact h3 j (by simp only [hp, List.mem_append, List.mem_cons]; tauto)
    | reportErr l1 l2 x k r e hp he =>
      simp only [List.mem_append, List.mem_cons, Task.mk.injEq, reduceCtorEq, and_false,
        false_or] at hj
      exact h3 j (by simp only [hp, List.mem_append, List.mem_cons]; tauto)
    | reportOk l1 l2 x k r hp he =>
      simp only [List.mem_append, List.mem_cons, Task.mk.injEq, reduceCtorEq, and_false,
        false_or] at hj
      exact h3 j (by simp only [hp, List.mem_append, List.mem_cons]; tauto)
    | loopEnd l1 l2 x k hp =>
      simp only [List.mem_append, List.mem_cons, Task.mk.injEq, reduceCtorEq, and_false,
        false_or] at hj
      exact h3 j (by simp only [hp, List.mem_append, List.mem_cons]; tauto)
    | spawn l1 l2 x k c rest hp =>
      simp only [List.mem_append, List.mem_cons, List.mem_singleton, Task.mk.injEq,
        reduceCtorEq, and_false, false_or, or_false] at hj
      exact h3 j (by simp only [hp, List.mem_append, List.mem_cons]; tauto)
    | done l1 l2 x k hp =>
      simp only [List.mem_append] at hj
      exact h3 j (by simp only [hp, List.mem_append, List.mem_cons]; tauto)

theorem visited_entry (f : Fetcher) (u : String) (k : Int) (s : State)
    (l1 l2 : List Task) (hp : s.pool = l1 ++ ⟨u, k, .entry⟩ :: l2) (hv : 1 ≤ mapGet s.v u) :
    step f s l1.length
      = some { s with v := (isVisited s.v u).1, pool := l1 ++ ⟨u, k, .exiting⟩ :: l2 } := by
  rw [step_at f s l1 l2 _ hp]
  simp [Crawl, hp, set_split, isVisited_snd, hv]

theorem exhausted_entry (f : Fetcher) (u : String) (k : Int) (s : State)
    (l1 l2 : List Task) (hp : s.pool = l1 ++ ⟨u, k, .entry⟩ :: l2) (hk : k ≤ 0) :
    step f s l1.length
      = some { s with v := (isVisited s.v u).1, pool := l1 ++ ⟨u, k, .exiting⟩ :: l2 } := by
  rw [step_at f s l1 l2 _ hp]
  by_cases hv : 1 ≤ mapGet s.v u <;> simp [Crawl, hp, set_split, isVisited_snd, hv, hk]

/-- C10: in an execution of `Crawl`, a task for a url not yet in the map whose
depth is `≤ 0` fetches nothing but sets the count of the url to 1; from then
on the url is never fetched and never printed, and every task for it, whatever
its depth, returns at the visited check: its two actions are the call of
`isVisited` and `Done()`, with no fetch, no output and no child. -/
theorem visited_before_depth (f : Fetcher) (root : String) (d : Int) (sched0 : List Nat)
    (s : State) (l1 l2 : List Task) (u : String) (k : Int)
    (hr : run f (initState root d) sched0 = some s)
    (hp : s.pool = l1 ++ ⟨u, k, .entry⟩ :: l2) (hv : s.v u = none) (hk : k ≤ 0) :
    ∃ s1, step f s l1.length = some s1 ∧
      s1.v u = some 1 ∧ s1.fetched = s.fetched ∧ s1.out = s.out ∧ s1.adds = s.adds ∧
      s1.pool = l1 ++ ⟨u, k, .exiting⟩ :: l2 ∧
      ∀ (sched : List Nat) (s2 : State), run f s1 sched = some s2 →
        1 ≤ mapGet s2.v u ∧ u ∉ s2.fetched ∧ (∀ e ∈ s2.out, e.url ≠ u) ∧
        (∀ (m1 m2 : List Task) (k1 : Int), s2.pool = m1 ++ ⟨u, k1, .entry⟩ :: m2 →
          ∃ s3, step f s2 m1.length = some s3 ∧
            s3.pool = m1 ++ ⟨u, k1, .exiting⟩ :: m2 ∧
            s3.fetched = s2.fetched ∧ s3.out = s2.out ∧ s3.adds = s2.adds) ∧
        (∀ (m1 m2 : List Task) (k1 : Int), s2.pool = m1 ++ ⟨u, k1, .exiting⟩ :: m2 →
          ∃ s3, step f s2 m1.length = some s3 ∧ s3.pool = m1 ++ m2 ∧
            s3.fetched = s2.fetched ∧ s3.out = s2.out ∧ s3.adds = s2.adds ∧
            s3.dones = s2.dones + 1) := by
  have hstep := exhausted_entry f u k s l1 l2 hp hk
  have hC := (inv_run f root d sched0 s hr).2.1
  have hv0 : mapGet s.v u = 0 := by simp [mapGet, hv]
  have hcl : (fetchingUrls s.pool).count u + s.fetched.count u ≤ 0 := by
    have := hC.claim u
    simpa [hv0] using this
  have hnf : u ∉ s.fetched := by
    intro hm
    have := List.count_pos_iff.mpr hm
    omega
  have hnp : ∀ j, (⟨u, j, .fetching⟩ : Task) ∉ s.pool := by
    intro j hj
    have := List.count_pos_iff.mpr ((mem_fetchingUrls s.pool u).mpr ⟨j, hj⟩)
    omega
  refine ⟨_, hstep, ?_, rfl, rfl, rfl, rfl, ?_⟩
  · simp [isVisited_fst, mapSet, hv0]
  · intro sched s2 h2
    have hI : 1 ≤ mapGet s2.v u ∧ u ∉ s2.fetched ∧ ∀ j, (⟨u, j, .fetching⟩ : Task) ∉ s2.pool := by
      refine run_induction f
        (fun x => 1 ≤ mapGet x.v u ∧ u ∉ x.fetched ∧ ∀ j, (⟨u, j, .fetching⟩ : Task) ∉ x.pool)
        (never_fetched_step f u) sched
        { s with v := (isVisited s.v u).1, pool := l1 ++ ⟨u, k, .exiting⟩ :: l2 } s2
        ⟨?_, hnf, ?_⟩ h2
      · simp only [isVisited_get_self, hv0]; omega
      · intro j hj
        simp only [List.mem_append, List.mem_cons, Task.mk.injEq, reduceCtorEq, and_false,
          false_or] at hj
        exact hnp j (by simp only [hp, List.mem_append, List.mem_cons]; tauto)
    have hreach : run f (initState root d) (sched0 ++ ([l1.length] ++ sched)) = some s2 := by
      rw [run_append, hr]
      simp only [Option.some_bind, List.singleton_append, run, hstep]
      exact h2
    have hC2 := (inv_run f root d _ s2 hreach).2.1
    refine ⟨hI.1, hI.2.1, ?_, ?_, ?_⟩
    · intro e he hu
      exact hI.2.1 (hu ▸ out_sub_fetched s2 hC2 e he)
    · intro m1 m2 k1 hp2
      exact ⟨_, visited_entry f u k1 s2 m1 m2 hp2 hI.1, rfl, rfl, rfl, rfl⟩
    · intro m1 m2 k1 hp2
      exact ⟨_, exiting_done f u k1 s2 m1 m2 hp2, rfl, rfl, rfl, rfl, rfl⟩

/-- On the graph A→[B,C], B→[C], C→[] with depth 2: the task for C spawned by
B has depth 0 and claims C; the task for C spawned by A, of depth 1, then
returns at the visited check. -/
theorem visited_before_depth_witness :
    ∃ s, run diamond.Fetch (initState "A" 2) [0, 0, 0, 0, 0, 1, 1, 1, 1] = some s ∧
      s.pool = [⟨"A", 2, .spawning []⟩, ⟨"B", 1, .spawning []⟩, ⟨"C", 1, .entry⟩,
                ⟨"C", 0, .entry⟩] ∧
      ∃ s1, step diamond.Fetch s 3 = some s1 ∧ s1.v "C" = some 1 ∧
        s1.fetched = ["A", "B"] ∧
        ∀ (sched : List Nat) (s2 : State), run diamond.Fetch s1 sched = some s2 →
          "C" ∉ s2.fetched ∧ ∀ e ∈ s2.out, e.url ≠ "C" := by
  obtain ⟨s1, h1, h2, h3, _, _, _, h7⟩ :=
    visited_before_depth diamond.Fetch "A" 2 [0, 0, 0, 0, 0, 1, 1, 1, 1] _
      [⟨"A", 2, .spawning []⟩, ⟨"B", 1, .spawning []⟩, ⟨"C", 1, .entry⟩] [] "C" 0
      rfl rfl rfl (by decide)
  exact ⟨_, rfl, rfl, s1, h1, h2, h3,
    fun sched s2 h => ⟨(h7 sched s2 h).2.1, (h7 sched s2 h).2.2.1⟩⟩

end Crawler

namespace TreeEq

/-! ## Walk and Same -/

theorem Walk_eq (t : Tree) : ∀ ch : List Int, Walk t ch = ch ++ inOrder t := by
  induction t with
  | nil => intro ch; simp [Walk, inOrder]
  | node l v r ihl ihr =>
    intro ch
    have hl : (if (!l.isNil) = true then Walk l ch else ch) = ch ++ inOrder l := by
      cases l with
      | nil => simp [Tree.isNil, inOrder]
      | node a b c => simpa [Tree.isNil] using ihl ch
    have hr : ∀ c2 : List Int, (if (!r.isNil) = true then Walk r c2 else c2) = c2 ++ inOrder r := by
      intro c2
      cases r with
      | nil => simp [Tree.isNil, inOrder]
      | node a b c => simpa [Tree.isNil] using ihr c2
    simp only [Walk, hl, hr, inOrder, List.append_assoc, List.singleton_append]

theorem sameLoop_iff : ∀ a b : List Int, sameLoop a b = true ↔ a = b := by
  intro a
  induction a with
  | nil =>
    intro b
    cases b with
    | nil => simp [sameLoop, recv]
    | cons y b => simp [sameLoop, recv]
  | cons x a ih =>
    intro b
    cases b with
    | nil => simp [sameLoop, recv]
    | cons y b =>
      by_cases hxy : x = y
      · simp [sameLoop, recv, hxy, ih b]
      · simp [sameLoop, recv, hxy]

theorem Same_iff (t1 t2 : Tree) : Same t1 t2 = true ↔ inOrder t1 = inOrder t2 := by
  simp [Same, sameLoop_iff, Walk_eq]

theorem inOrder_sorted (t : Tree) (h : IsBST t) : (inOrder t).Sorted (· ≤ ·) := by
  induction t with
  | nil => simp [inOrder]
  | node l v r ihl ihr =>
    obtain ⟨h1, h2, h3, h4⟩ := h
    simp only [inOrder, List.Sorted, List.pairwise_append, List.pairwise_cons, List.mem_cons]
    refine ⟨ihl h1, ⟨h4, ihr h2⟩, ?_⟩
    intro a ha b hb
    rcases hb with hb | hb
    · exact hb ▸ le_of_lt (h3 a ha)
    · exact le_trans (le_of_lt (h3 a ha)) (h4 b hb)

theorem inOrder_insert (t : Tree) (v : Int) : (inOrder (insert t v)).Perm (v :: inOrder t) := by
  induction t with
  | nil => simp [insert, inOrder]
  | node l x r ihl ihr =>
    by_cases h : v < x
    · simp only [insert, h, if_true, inOrder]
      exact (ihl.append_right _).trans (by simp)
    · simp only [insert, h, if_false, inOrder]
      have h1 : (inOrder l ++ x :: inOrder (insert r v)).Perm (inOrder l ++ x :: v :: inOrder r) :=
        List.Perm.append_left _ (List.Perm.cons _ ihr)
      refine h1.trans ?_
      have h2 : (x :: v :: inOrder r).Perm (v :: x :: inOrder r) := List.Perm.swap _ _ _
      refine (List.Perm.append_left _ h2).trans ?_
      exact List.perm_middle

theorem insert_bst (t : Tree) (v : Int) (h : IsBST t) : IsBST (insert t v) := by
  induction t with
  | nil => simp [insert, IsBST, inOrder]
  | node l x r ihl ihr =>
    obtain ⟨h1, h2, h3, h4⟩ := h
    by_cases hv : v < x
    · simp only [insert, hv, if_true, IsBST]
      refine ⟨ihl h1, h2, ?_, h4⟩
      intro y hy
      rcases List.mem_cons.mp ((inOrder_insert l v).subset hy) with hy | hy
      · exact hy ▸ hv
      · exact h3 y hy
    · simp only [insert, hv, if_false, IsBST]
      refine ⟨h1, ihr h2, h3, ?_⟩
      intro y hy
      rcases List.mem_cons.mp ((inOrder_insert r v).subset hy) with hy | hy
      · exact hy ▸ (not_lt.mp hv)
      · exact h4 y hy

theorem foldl_insert (g : Nat → Int) : ∀ (p : List Nat) (t : Tree), IsBST t →
    IsBST (p.foldl (fun t v => insert t (g v)) t) ∧
    (inOrder (p.foldl (fun t v => insert t (g v)) t)).Perm (p.map g ++ inOrder t) := by
  intro p
  induction p with
  | nil => intro t h; exact ⟨h, by simp⟩
  | cons a p ih =>
    intro t h
    obtain ⟨h1, h2⟩ := ih (insert t (g a)) (insert_bst t (g a) h)
    refine ⟨h1, ?_⟩
    simp only [List.foldl_cons, List.map_cons, List.cons_append]
    refine h2.trans ?_
    refine (List.Perm.append_left _ (inOrder_insert t (g a))).trans ?_
    exact List.perm_middle

theorem New_spec (p : List Nat) (k : Int) (hp : p.Perm (List.range 10)) :
    IsBST (New p k) ∧
    (inOrder (New p k)).Perm ((List.range 10).map (fun v : Nat => (1 + (v : Int)) * k)) := by
  unfold New
  obtain ⟨h1, h2⟩ := foldl_insert (fun v : Nat => (1 + (v : Int)) * k) p .nil trivial
  refine ⟨h1, ?_⟩
  simp only [inOrder, List.append_nil] at h2
  exact h2.trans (hp.map _)

theorem Same_bst_iff (t1 t2 : Tree) (h1 : IsBST t1) (h2 : IsBST t2) :
    Same t1 t2 = true ↔ (inOrder t1).Perm (inOrder t2) := by
  rw [Same_iff]
  constructor
  · intro h; rw [h]
  · intro h
    exact List.eq_of_perm_of_sorted h (inOrder_sorted t1 h1) (inOrder_sorted t2 h2)

/-- C9: `Same` returns true exactly when the sequences `Walk` sends for the two
trees, which are their in-order sequences, have the same length and the same
value at every position; for sorted binary search trees that is exactly when
the trees hold the same values; `Same(tree.New(1), tree.New(1))` is true and
`Same(tree.New(1), tree.New(2))` is false, whatever the random shapes. -/
theorem Same_spec :
    (∀ t : Tree, Walk t [] = inOrder t) ∧
    (∀ t1 t2 : Tree, Same t1 t2 = true ↔
      ((Walk t1 []).length = (Walk t2 []).length ∧
        ∀ i : Nat, (Walk t1 [])[i]? = (Walk t2 [])[i]?)) ∧
    (∀ t1 t2 : Tree, IsBST t1 → IsBST t2 →
      (Same t1 t2 = true ↔ (inOrder t1).Perm (inOrder t2))) ∧
    (∀ t1 t2 : Tree, IsBST t1 → IsBST t2 → (inOrder t1).Nodup → (inOrder t2).Nodup →
      (Same t1 t2 = true ↔ ∀ x, x ∈ inOrder t1 ↔ x ∈ inOrder t2)) ∧
    (∀ p1 p2 p3 : List Nat, p1.Perm (List.range 10) → p2.Perm (List.range 10) →
      p3.Perm (List.range 10) →
      Same (New p1 1) (New p2 1) = true ∧ Same (New p1 1) (New p3 2) = false) := by
  refine ⟨fun t => by simp [Walk_eq], ?_, Same_bst_iff, ?_, ?_⟩
  · intro t1 t2
    rw [Same_iff, Walk_eq, Walk_eq, List.nil_append, List.nil_append]
    constructor
    · intro h; rw [h]; simp
    · rintro ⟨_, h⟩
      exact List.ext_getElem? h
  · intro t1 t2 h1 h2 n1 n2
    rw [Same_bst_iff t1 t2 h1 h2]
    exact List.perm_ext_iff_of_nodup n1 n2
  · intro p1 p2 p3 h1 h2 h3
    obtain ⟨b1, q1⟩ := New_spec p1 1 h1
    obtain ⟨b2, q2⟩ := New_spec p2 1 h2
    obtain ⟨b3, q3⟩ := New_spec p3 2 h3
    constructor
    · rw [Same_bst_iff _ _ b1 b2]
      exact q1.trans q2.symm
    · rw [Bool.eq_false_iff]
      intro h
      rw [Same_bst_iff _ _ b1 b3] at h
      have h20 : (20 : Int) ∈ inOrder (New p3 2) := q3.symm.subset (by decide)
      have := q1.subset (h.symm.subset h20)
      revert this
      decide

/-- The tree.go `main`: two trees built from explicit insertion orders. -/
theorem Same_spec_witness :
    Same (New [3, 1, 4, 0, 5, 9, 2, 6, 8, 7] 1) (New [0, 1, 2, 3, 4, 5, 6, 7, 8, 9] 1) = true ∧
    Same (New [3, 1, 4, 0, 5, 9, 2, 6, 8, 7] 1) (New [9, 8, 7, 6, 5, 4, 3, 2, 1, 0] 2) = false :=
  Same_spec.2.2.2.2 _ _ _ (by decide) (by decide) (by decide)

end TreeEq
